import Mathlib

/-
Verification of the walk canonicalization, diffusion, and trajectory-encoding
core of src/diffusion.py, as a shallow embedding in Lean 4.

Modelling conventions:
- Python floats are modelled as rationals; machine rounding is out of scope
  for the properties settled here.
- Python lists are Lean lists; in-place mutation is modelled by returning the
  new value.
- Python exceptions (KeyError, IndexError, AssertionError) are modelled with
  Option/Except; a breakpoint() call, which traps into the debugger without
  raising, is modelled as an observable boolean flag.
- Node identity (Python object identity) coincides with structural equality
  under the distinct-id hypotheses stated in the theorems.
- networkx MultiDiGraph multi-edges are collapsed to edge presence; none of
  the settled claims depends on parallel-edge multiplicity.
-/

namespace RandomWalk

/-! §0  Character-list string primitives.

Built-in String operations such as splitOn do not reduce in the kernel, so the
Python string operations used by the source are re-implemented over character
lists with the exact Python semantics. -/

/-- Whether the first list is a prefix of the second. -/
def isPrefChars : List Char → List Char → Bool
  | [], _ => true
  | _ :: _, [] => false
  | a :: as, b :: bs => a == b && isPrefChars as bs

/-- Whether the first list occurs as a contiguous substring of the second
(Python substring containment). -/
def containsChars (n : List Char) : List Char → Bool
  | [] => n.isEmpty
  | b :: bs => isPrefChars n (b :: bs) || containsChars n bs

/-- Python substring test: needle in hay. -/
def strIn (needle hay : String) : Bool := containsChars needle.toList hay.toList

/-- Python str.split with a non-empty separator (given as head character plus
tail), greedy left-to-right, non-overlapping. The fuel argument (any bound of
at least the list length) makes the recursion structural so that concrete
instances reduce in the kernel. -/
def splitChars (s0 : Char) (st : List Char) : Nat → List Char → List (List Char)
  | 0, _ => [[]]
  | f + 1, l =>
    match l with
    | [] => [[]]
    | c :: rest =>
      if isPrefChars (s0 :: st) (c :: rest) then
        [] :: splitChars s0 st f (rest.drop st.length)
      else
        match splitChars s0 st f rest with
        | [] => [[c]]
        | l :: ls => (c :: l) :: ls

/-- Python x.split(sep) for the non-empty separators used by the source. -/
def pySplit (sep x : String) : List String :=
  match sep.toList with
  | [] => [x]
  | s0 :: st => (splitChars s0 st x.toList.length x.toList).map String.mk

/-- Numeric value of a decimal digit character. -/
def digitVal (c : Char) : Nat := c.toNat - '0'.toNat

/-- Natural number denoted by a list of decimal digit characters. -/
def natOfDigits (cs : List Char) : Nat := cs.foldl (fun a c => 10 * a + digitVal c) 0

/-- Whether a character list is a non-empty run of decimal digits, i.e. int()
would accept it. -/
def allDigits (cs : List Char) : Bool := !cs.isEmpty && cs.all (·.isDigit)

/-! §1  Trajectory encoder (src/diffusion.py: extract_sides, append_traj,
check_colon_order). -/

/-- Python: '[' in x. -/
def hasBracket (x : String) : Bool := strIn "[" x

/-- Python: x.split('[')[0]. -/
def headPart (x : String) : String := (pySplit "[" x).headD ""

/-- Python: x.find('['). -/
def bracketIdx (x : String) : Nat := x.toList.findIdx (· == '[')

/-- Python: x[x.find('[')+1:-1]. -/
def sliceInner (x : String) : String :=
  String.mk ((x.toList.drop (bracketIdx x + 1)).dropLast)

/-- Source extract_sides: "L3[->P28,->S20]" gives ["L3", "P28", "S20"]: the
head before the bracket, then the terminal step of each comma-separated
excursion. -/
def extract_sides (x : String) : List String :=
  headPart x ::
    (pySplit "," (((pySplit "[" x).getD 1 "").dropRight 1)).map
      (fun a => (pySplit "->" a).getLastD "")

/-- The flat decoded list of previously-visited index strings built at the top
of append_traj. -/
def decodeTraj (traj : List String) : List String :=
  traj.flatMap (fun x => if hasBracket x then extract_sides x else [x])

/-- Python: traj[-2][-1] == ']'. -/
def endsBracket (x : String) : Bool := x.toList.getLastD ' ' == ']'

/-- Number of decoded entries that contain str(after) as a substring; the
source computes occur.sum() over the boolean numpy array
[str(after) in x for x in occur]. -/
def occurCount (traj : List String) (after : Nat) : Nat :=
  ((decodeTraj traj).map (fun x => strIn (toString after) x)).count true

/-- The linearized side string built from a bracketed last token: for
"4[->25]" this is "->4->25" (source: ''.join([f"->.." ] + sides)). -/
def linearSide (t1 : String) : String :=
  "->" ++ String.mk (t1.toList.take (bracketIdx t1)) ++
    String.join (pySplit "," (sliceInner t1))

/-- Source append_traj. Returns none for the one AssertionError the source can
raise (a bracketed second-to-last token that does not end with ']'); some []
is the source's empty-list rejection signal. -/
def appendTraj (traj : List String) (after : Nat) : Option (List String) :=
  if occurCount traj after != 0 then
    if (decodeTraj traj).length == 1 || occurCount traj after != 1 then some []
    else if traj.length < 2 ||
        toString after != headPart (traj.getD (traj.length - 2) "") then some []
    else
      let t2 := traj.getD (traj.length - 2) ""
      let t1 := traj.getLastD ""
      if hasBracket t2 then
        if hasBracket t1 then
          if (pySplit "," (sliceInner t1)).length > 1 then some []
          else if !(endsBracket t2) then none
          else some (traj.dropLast.dropLast ++
            [t2.dropRight 1 ++ "," ++ linearSide t1 ++ "]"])
        else
          some (traj.dropLast.dropLast ++ [t2.dropRight 1 ++ ",->" ++ t1 ++ "]"])
      else
        if hasBracket t1 then
          if (pySplit "," (sliceInner t1)).length > 1 then some []
          else some (traj.dropLast.dropLast ++ [t2 ++ "[" ++ linearSide t1 ++ "]"])
        else
          some (traj.dropLast.dropLast ++ [t2 ++ "[->" ++ t1 ++ "]"])
  else some (traj ++ [toString after])

/-- Modelled from the spec: utils.extract (imported by src/diffusion.py from
utils, which is not under src/) returns the integer head of a trajectory
token, "the index that is the head of the most recently written token"; for
"50[->8]" this is 50. -/
def extract (x : String) : Nat := natOfDigits (x.toList.takeWhile (·.isDigit))

/-- Python: ':' in x. -/
def hasColon (x : String) : Bool := strIn ":" x

/-- Python: int(lbl.split(':')[-1]) for well-formed numeric suffixes. -/
def colonSuffix (lbl : String) : Nat := natOfDigits ((pySplit ":" lbl).getLastD "").toList

/-- Python: lbl.split(':')[0]. -/
def groupPart (lbl : String) : String := (pySplit ":" lbl).headD ""

/-- The filtered previously-visited labels list of check_colon_order:
[all_nodes[extract(x)] for x in traj if grp in all_nodes[extract(x)]]. -/
def prevLabels (all_nodes : List String) (traj : List String) (grp : String) : List String :=
  (traj.filter (fun x => strIn grp (all_nodes.getD (extract x) ""))).map
    (fun x => all_nodes.getD (extract x) "")

/-- Source check_colon_order: true means the candidate transition to index
after is forbidden. -/
def checkColonOrder (all_nodes : List String) (traj : List String) (after : Nat) : Bool :=
  let lbl := all_nodes.getD after ""
  let ind := if hasColon lbl then colonSuffix lbl else 0
  let grp := groupPart lbl
  let prev := prevLabels all_nodes traj grp
  let bad1 := prev.any (fun p => hasColon p && decide (ind < colonSuffix p))
  let bad2 := (List.range ind).any
    (fun i => !(prev.contains (grp ++ (if i != 0 then ":" ++ toString i else ""))))
  bad1 || bad2

/-! §2  Tree model and main-chain canonicalizer
(src/diffusion.py: DiffusionProcess.impose_order, compute_main_chain,
dfs_walk, side_childs). A Node carries the source's id, val, side_chain flag
and ordered children; the edge metadata stored alongside each child in the
source is never consulted by the verified code paths and is elided. -/

inductive Node where
  | mk (id : Nat) (val : String) (side_chain : Bool) (children : List Node)

def Node.id : Node → Nat
  | .mk i _ _ _ => i

def Node.val : Node → String
  | .mk _ v _ _ => v

def Node.sideChain : Node → Bool
  | .mk _ _ s _ => s

def Node.children : Node → List Node
  | .mk _ _ _ cs => cs

instance : Inhabited Node := ⟨.mk 0 "" false []⟩

mutual
def Node.deq : (a b : Node) → Decidable (a = b)
  | .mk i v s cs, .mk i' v' s' cs' =>
    match decEq i i', decEq v v', decEq s s', Node.deqList cs cs' with
    | isTrue h1, isTrue h2, isTrue h3, isTrue h4 => isTrue (by subst h1 h2 h3 h4; rfl)
    | isFalse h1, _, _, _ => isFalse (by intro h; cases h; exact h1 rfl)
    | _, isFalse h2, _, _ => isFalse (by intro h; cases h; exact h2 rfl)
    | _, _, isFalse h3, _ => isFalse (by intro h; cases h; exact h3 rfl)
    | _, _, _, isFalse h4 => isFalse (by intro h; cases h; exact h4 rfl)
def Node.deqList : (a b : List Node) → Decidable (a = b)
  | [], [] => isTrue rfl
  | [], _ :: _ => isFalse (by intro h; cases h)
  | _ :: _, [] => isFalse (by intro h; cases h)
  | a :: as, b :: bs =>
    match Node.deq a b, Node.deqList as bs with
    | isTrue h1, isTrue h2 => isTrue (by subst h1 h2; rfl)
    | isFalse h1, _ => isFalse (by intro h; cases h; exact h1 rfl)
    | _, isFalse h2 => isFalse (by intro h; cases h; exact h2 rfl)
end

instance : DecidableEq Node := Node.deq

mutual
/-- All nodes of a tree: the node itself followed by all nodes of its
children, in order. -/
def allNodes : Node → List Node
  | .mk i v s cs => .mk i v s cs :: allNodesL cs
def allNodesL : List Node → List Node
  | [] => []
  | c :: cs => allNodes c ++ allNodesL cs
end

mutual
/-- Number of nodes of a tree. -/
def nodeCount : Node → Nat
  | .mk _ _ _ cs => 1 + nodeCountL cs
def nodeCountL : List Node → Nat
  | [] => 0
  | c :: cs => nodeCount c + nodeCountL cs
end

/-- Source side_childs: the children flagged as side chains, in child order. -/
def sideChilds (n : Node) : List Node := n.children.filter (·.sideChain)

/-- Number of children not flagged side-chain (num_main_childs in the
source). -/
def mainChildCount (n : Node) : Nat := (n.children.filter (fun c => !c.sideChain)).length

/-- First child not flagged side-chain, as picked by the chain walk. -/
def firstMainChild (n : Node) : Option Node := n.children.find? (fun c => !c.sideChain)

/-- Sort key of Python sorted(childs, key=(not side_chain, id)): side-chain
children first, then ascending id. -/
def sideKey (n : Node) : Nat := if n.sideChain then 0 else 1

def keyLt (a b : Node) : Bool :=
  decide (sideKey a < sideKey b) || (sideKey a == sideKey b && decide (a.id < b.id))

/-- Stable insertion preserving the original order of equal keys, as Python's
stable sorted does. -/
def sortedInsert (a : Node) : List Node → List Node
  | [] => [a]
  | b :: bs => if keyLt b a then b :: sortedInsert a bs else a :: b :: bs

/-- Python sorted(node.children, key=lambda x: (not side_chain, id)). -/
def sortChilds (l : List Node) : List Node := l.foldr sortedInsert []

/-- Index of the first child of strictly smallest id (the source scans
forward, replacing only on strict decrease). -/
def minIdIdx (cs : List Node) : Nat :=
  (cs.foldl (fun (acc : Nat × Nat × Nat) c =>
    let (best, bestId, j) := acc
    if c.id < bestId then (j, c.id, j + 1) else (best, bestId, j + 1))
    (0, (cs.headD default).id, 0)).1

mutual
/-- Source impose_order: flag every child side-chain, then (when add_main and
children exist) unflag the child of smallest id, recursing into it with
add_main and into the rest without. The child at index j keeps flag
(j different from the promoted index) and its recursively imposed subtree. -/
def imposeOrder : Node → Bool → Node
  | .mk i v sc cs, addMain =>
    .mk i v sc (imposeChildren cs 0 (if addMain && !cs.isEmpty then minIdIdx cs else cs.length))
def imposeChildren : List Node → Nat → Nat → List Node
  | [], _, _ => []
  | c :: rest, j, li =>
    Node.mk c.id c.val (j != li) (imposeOrder c (j == li)).children ::
      imposeChildren rest (j + 1) li
end

mutual
/-- Fuel sufficient for the depth-first walk of a tree (one unit per node
visit plus one per child-list step). -/
def fuelW : Node → Nat
  | .mk _ _ _ cs => 1 + fuelC cs
def fuelC : List Node → Nat
  | [] => 1
  | c :: cs => 1 + fuelW c + fuelC cs
end

/-- Assoc-list lookup for the permutation map (Python dict lookup; the
construction writes the entry for the smallest chain position last and this
lookup reads the first entry, which coincides). -/
def lookupPm (m : List (Nat × List Node)) (k : Nat) : Option (List Node) :=
  (m.find? (fun p => p.1 == k)).map (·.2)

/-- Child ordering of dfs_walk: stable-sorted children (side chains first,
ascending id); when a perm_map is given and the node is not side-chain, the
side-chain portion childs[:ind] is replaced by perm_map[node.id] (none models
the KeyError on a missing entry). -/
def orderedChilds (pm : List (Nat × List Node)) (usePm : Bool) (n : Node) : Option (List Node) :=
  let childs := sortChilds n.children
  if usePm && !n.sideChain then
    match lookupPm pm n.id with
    | none => none
    | some perm => some (perm ++ childs.drop (childs.findIdx (fun c => !c.sideChain)))
  else some childs

/-- Source dfs_walk over an accumulator res, exactly as the Python mutation:
visiting a node appends it and processes its ordered children; a child of id 0
is skipped; after a side-chain child's subtree is appended, the span from the
element preceding the subtree up to the second-to-last element is re-appended
in reverse (the descend-then-return duplication). The inl/inr argument fuses
the node and child-list phases so the recursion is structural in the fuel. -/
def dfsRun (pm : List (Nat × List Node)) (usePm : Bool) :
    Nat → List Node → (Node ⊕ List Node) → Option (List Node)
  | 0, _, _ => none
  | f + 1, res, .inl n =>
    match orderedChilds pm usePm n with
    | none => none
    | some cs => dfsRun pm usePm f (res ++ [n]) (.inr cs)
  | _ + 1, res, .inr [] => some res
  | f + 1, res, .inr (c :: cs) =>
    if c.id ≠ 0 then
      match dfsRun pm usePm f res (.inl c) with
      | none => none
      | some r2 =>
        dfsRun pm usePm f
          (if c.sideChain then r2 ++ (r2.dropLast.drop (res.length - 1)).reverse else r2)
          (.inr cs)
    else dfsRun pm usePm f res (.inr cs)

/-- dfs_walk from a node with empty accumulator. -/
def dfsWalk (pm : List (Nat × List Node)) (usePm : Bool) (fuel : Nat) (n : Node) :
    Option (List Node) :=
  dfsRun pm usePm fuel [] (.inl n)

mutual
/-- The set of nodes the depth-first walk visits (each at least once):
every node reachable from the root without passing through a child of id 0
(dfs_walk skips those). -/
def visited : Node → List Node
  | .mk i v s cs => .mk i v s cs :: visitedL cs
def visitedL : List Node → List Node
  | [] => []
  | c :: cs => (if c.id = 0 then [] else visited c) ++ visitedL cs
end

/-- need_impose of compute_main_chain: some node of the plain walk has more
than one non-side-chain child. -/
def needImpose (t : Node) : Bool :=
  ((dfsWalk [] false (fuelW t) t).getD []).any (fun n => 1 < mainChildCount n)

/-- The tree after compute_main_chain's conditional impose_order(dag, True)
(the source mutates the dag in place; this returns the mutated tree). -/
def canonicalize (t : Node) : Node := if needImpose t then imposeOrder t true else t

/-- The chain walk of compute_main_chain: starting from the root, repeatedly
assert at most one non-side-chain child (none models the AssertionError),
append the first non-side-chain child, or close back to the root when there is
none; the walk stops when the appended element has id 0. Fuel-indexed; any
fuel above the tree depth is sufficient. -/
def chainFrom (root : Node) : Nat → Node → Option (List Node)
  | 0, _ => none
  | f + 1, cur =>
    if 1 < mainChildCount cur then none
    else
      match firstMainChild cur with
      | some c => if c.id = 0 then some [cur, c] else (chainFrom root f c).map (cur :: ·)
      | none => some [cur, root]

/-- Source compute_main_chain (after its conditional impose; the caller
canonicalizes first). -/
def computeMainChain (t : Node) : Option (List Node) :=
  chainFrom t (nodeCount t + 1) t

/-! §3  Canonical walk enumerator (src/diffusion.py: compute_dfs,
augment_walk_order and the seed handling of DiffusionProcess.__init__). -/

/-- itertools.permutations order: for each index position in input order,
that element prepended to the permutations of the remainder. Fuel at least
the list length is sufficient. -/
def pyPermutations : Nat → List Node → List (List Node)
  | _, [] => [[]]
  | 0, _ :: _ => [[]]
  | f + 1, l =>
    (List.range l.length).flatMap
      (fun i => (pyPermutations f (l.eraseIdx i)).map ((l.getD i default) :: ·))

/-- The seed-digit loop of compute_dfs: walking main_chain[:-1] from the tail
backward, take the seed modulo factorial(side-child count) as a permutation
rank for that node and divide the seed by the factorial; returns the
accumulated perm_map (head entry written last) and the final remainder. -/
def seedFold (mc : List Node) (seed : Nat) : List (Nat × List Node) × Nat :=
  (mc.dropLast).reverse.foldl
    (fun acc a =>
      let sc := sideChilds a
      let k := Nat.factorial sc.length
      ((a.id, (pyPermutations sc.length sc).getD (acc.2 % k) []) :: acc.1, acc.2 / k))
    ([], seed)

/-- The remainder the source asserts to be zero after removing all digits. -/
def seedRemainder (mc : List Node) (seed : Nat) : Nat := (seedFold mc seed).2

/-- The perm_map built by compute_dfs. -/
def permMapOf (mc : List Node) (seed : Nat) : List (Nat × List Node) := (seedFold mc seed).1

/-- total of DiffusionProcess.__init__: the product over main_chain[:-1] of
factorial(side-chain child count). -/
def totalOf (mc : List Node) : Nat :=
  ((mc.dropLast).map (fun a => Nat.factorial (sideChilds a).length)).prod

/-- Source compute_dfs: extract the mixed-radix digits (building the
perm_map), fail if the remainder is nonzero (the assert), then run the
permuted depth-first walk. -/
def computeDfs (t : Node) (mc : List Node) (seed : Nat) : Option (List Node) :=
  if seedRemainder mc seed ≠ 0 then none
  else dfsWalk (permMapOf mc seed) true (fuelW t) t

/-- The indices loop of augment_walk_order: scan res with a pointer into
main_chain, recording the position of each match and advancing the pointer;
none models the IndexError raised when the pointer runs past the end of
main_chain while res elements remain. -/
def computeIndices : List Node → List Node → Nat → Option (List Nat)
  | [], _, _ => some []
  | _ :: _, [], _ => none
  | r :: rs, m :: ms, j =>
    if r = m then (computeIndices rs ms (j + 1)).map (j :: ·)
    else computeIndices rs (m :: ms) (j + 1)

/-- The reassembly loop of augment_walk_order: for each step, slice res
between consecutive wrapped indices (wrapping past the end concatenates the
tail of res with its head slice). -/
def augmentSlices (res : List Node) (idxs : List Nat) (startNode : Nat) (dir : Bool) :
    List Node :=
  let L := idxs.length
  (List.range L).flatMap (fun step =>
    let s := if dir then (startNode + step) % L else (startNode + L - (step + 1)) % L
    let e := if dir then (startNode + step + 1) % L else (startNode + L - step) % L
    let is := idxs.getD s 0
    let ie := idxs.getD e 0
    if ie ≤ is then res.drop is ++ res.take ie
    else (res.drop is).take (ie - is))

/-- Source augment_walk_order (dfs_seed // total picks the start offset along
the main chain; dir is dfs_dir). -/
def augmentWalkOrder (res mc : List Node) (seed total : Nat) (dir : Bool) :
    Option (List Node) :=
  (computeIndices res mc 0).map (fun idxs => augmentSlices res idxs (seed / total) dir)

/-! §4  Diffusion process and diffusion graph (src/diffusion.py:
DiffusionProcess.reset/step, DiffusionGraph.step/modify_graph/value_count).
Probabilities are rationals; the two breakpoint() debugger traps reachable
from step (the unimplemented side-chain-with-children case and the
mass-deviation check) are modelled as a returned boolean flag since execution
continues through them, while KeyError and IndexError abort the step. -/

inductive StepErr where
  | keyErr
  | idxErr
deriving DecidableEq

/-- One diffusion process: the shared label-to-position lookup, the tree, the
side_chains and split flags, the precomputed walk order, and the mutable t,
state and frontier. -/
structure Proc where
  lookup : List (String × Nat)
  dag : Node
  sideChains : Bool
  split : Bool
  dfsOrder : List Node
  numNodes : Nat
  t : Nat
  state : List ℚ
  frontier : List (Node × ℚ)

/-- Python dict lookup self.lookup[k]. -/
def lookupVal (m : List (String × Nat)) (k : String) : Option Nat :=
  (m.find? (fun p => p.1 == k)).map (·.2)

/-- Source reset: t to 0, state to zeros with unit mass at the root's label
when present (when absent the source leaves the frontier attribute unset; the
previous frontier value stands in for that unreachable corner). -/
def resetProc (p : Proc) : Proc :=
  let zeros := List.replicate p.lookup.length (0 : ℚ)
  match lookupVal p.lookup p.dag.val with
  | some ix => { p with t := 0, state := zeros.set ix 1, frontier := [(p.dag, 1)] }
  | none => { p with t := 0, state := zeros }

/-- defaultdict(float) accumulation new_frontier[n] += q, preserving
insertion order. -/
def addFrontier : List (Node × ℚ) → Node → ℚ → List (Node × ℚ)
  | [], n, q => [(n, q)]
  | (m, p) :: rest, n, q =>
    if m = n then (m, p + q) :: rest else (m, p) :: addFrontier rest n q

mutual
/-- Parent of a node inside a tree (the source stores a parent back-reference
at construction; here it is recovered from the root). -/
def parentIn : Node → Node → Option Node
  | .mk i v s cs, x =>
    if cs.contains x then some (.mk i v s cs) else parentInL cs x
def parentInL : List Node → Node → Option Node
  | [], _ => none
  | c :: cs, x =>
    match parentIn c x with
    | some p => some p
    | none => parentInL cs x
end

/-- The split-mode frontier update of step: side-chain mass is dropped when
side_chains is off; a side-chain node with children hits the breakpoint()
(flag) and contributes nothing; a side-chain leaf sends its mass to its
parent; a non-side-chain node splits its mass uniformly over all its
children. -/
def splitNewFrontier (root : Node) (sideChains : Bool) (fr : List (Node × ℚ)) :
    List (Node × ℚ) × Bool :=
  fr.foldl
    (fun acc cur =>
      if cur.1.sideChain then
        if !sideChains then acc
        else if !cur.1.children.isEmpty then (acc.1, true)
        else (addFrontier acc.1 ((parentIn root cur.1).getD cur.1) cur.2, acc.2)
      else
        (cur.1.children.foldl
          (fun a2 c => addFrontier a2 c (cur.2 / (cur.1.children.length : ℚ))) acc.1,
          acc.2))
    ([], false)

/-- The new_state loop of step: write each frontier node's mass at
lookup[val] into a zero vector (KeyError on a missing label, IndexError on an
out-of-range position, each raised before any state is committed). -/
def buildState (lk : List (String × Nat)) : List ℚ → List (Node × ℚ) →
    Except StepErr (List ℚ)
  | acc, [] => .ok acc
  | acc, (k, v) :: rest =>
    match lookupVal lk k.val with
    | none => .error .keyErr
    | some ix => if ix < acc.length then buildState lk (acc.set ix v) rest else .error .idxErr

/-- Source DiffusionProcess.step. On success returns the stepped process and
whether a breakpoint() trap was reached (unimplemented split case, or
new_state.sum() - 1 > 0.01); the state, frontier and t are committed only
after the new state is fully built, matching the source's assignment order. -/
def stepProc (p : Proc) : Except StepErr (Proc × Bool) :=
  let nfb :=
    if p.split then splitNewFrontier p.dag p.sideChains p.frontier
    else ([(p.dfsOrder.getD ((p.t + 1) % p.numNodes) default, (1 : ℚ))], false)
  match buildState p.lookup (List.replicate p.state.length 0) nfb.1 with
  | .error e => .error e
  | .ok ns =>
    .ok ({ p with state := ns, frontier := nfb.1, t := p.t + 1 },
      nfb.2 || decide ((1 : ℚ) / 100 < ns.sum - 1))

instance : Inhabited Proc := ⟨⟨[], default, false, false, [], 0, 0, [], []⟩⟩

/-- The concrete split-mode tree of the mass-conservation counterexample: a
root labelled R with one side-chain child labelled C. -/
def c2Dag : Node := .mk 0 "R" false [.mk 1 "C" true []]

/-- The counterexample process right after reset: unit mass at R. -/
def c2Proc0 : Proc :=
  ⟨[("R", 0), ("C", 1)], c2Dag, false, true, [], 1, 0, [1, 0], [(c2Dag, 1)]⟩

/-- After one step: the mass moved to the side-chain child C. -/
def c2Proc1 : Proc :=
  ⟨[("R", 0), ("C", 1)], c2Dag, false, true, [], 1, 1, [0, 1], [(Node.mk 1 "C" true [], 1)]⟩

/-- After two steps: with side_chains disabled the side-chain mass is dropped
and the state is all zero. -/
def c2Proc2 : Proc :=
  ⟨[("R", 0), ("C", 1)], c2Dag, false, true, [], 1, 2, [0, 0], []⟩

/-- The n simultaneous processes plus the graph's own step counter. -/
structure GraphState where
  processes : List Proc
  t : Nat

/-- Per-process stepping of DiffusionGraph.step: a KeyError is caught and the
process skipped; an IndexError is not caught and propagates. -/
def stepEach : List Proc → Except StepErr (List Proc)
  | [] => .ok []
  | p :: ps =>
    match stepProc p with
    | .ok pb => (stepEach ps).map (pb.1 :: ·)
    | .error .keyErr => (stepEach ps).map (p :: ·)
    | .error .idxErr => .error .idxErr

/-- Source DiffusionGraph.step: step every process (skipping KeyError), then
advance the graph's own counter. -/
def graphStep (g : GraphState) : Except StepErr GraphState :=
  (stepEach g.processes).map (fun ps => ⟨ps, g.t + 1⟩)

/-- The shared group graph: node list in insertion order and directed edge
presence (networkx MultiDiGraph with parallel edges collapsed; none of the
settled claims depends on multiplicity). -/
structure PyGraph where
  nodes : List String
  edges : List (String × String)
deriving DecidableEq

def addNodeG (g : PyGraph) (n : String) : PyGraph :=
  if g.nodes.contains n then g else ⟨g.nodes ++ [n], g.edges⟩

def hasEdge (g : PyGraph) (a b : String) : Bool := g.edges.contains (a, b)

def addEdgeG (g : PyGraph) (a b : String) : PyGraph :=
  let g1 := addNodeG (addNodeG g a) b
  if hasEdge g1 a b then g1 else ⟨g1.nodes, g1.edges ++ [(a, b)]⟩

/-- First-occurrence deduplication (dict key order). -/
def dedup : List String → List String
  | [] => []
  | x :: xs => x :: (dedup xs).filter (fun y => y != x)

/-- graph[k]: out-neighbours of k in insertion order. -/
def outNbrs (g : PyGraph) (k : String) : List String :=
  dedup ((g.edges.filter (fun e => e.1 == k)).map (·.2))

/-- Ordered-assoc increment counts[k] = counts.get(k, 0) + 1. -/
def bump : List (String × Nat) → String → List (String × Nat)
  | [], k => [(k, 1)]
  | (a, n) :: rest, k =>
    if a = k then (a, n + 1) :: rest else (a, n) :: bump rest k

mutual
/-- Source value_count: count each node's label (children of id 0 are
skipped). The in-place ":n" suffix rewrite of repeated labels happens after a
node's original label is counted and so does not affect the counts. -/
def valueCountN : Node → List (String × Nat) → List (String × Nat)
  | .mk _ v _ cs, m => valueCountL cs (bump m v)
def valueCountL : List Node → List (String × Nat) → List (String × Nat)
  | [], m => m
  | c :: cs, m => valueCountL cs (if c.id = 0 then m else valueCountN c m)
end

/-- max_value_count[k] = max(max_value_count.get(k, 0), v). -/
def setMax : List (String × Nat) → String → Nat → List (String × Nat)
  | [], k, v => [(k, v)]
  | (a, n) :: rest, k, v =>
    if a = k then (a, max n v) :: rest else (a, n) :: setMax rest k v

def mergeMax (m m' : List (String × Nat)) : List (String × Nat) :=
  m'.foldl (fun acc kv => setMax acc kv.1 kv.2) m

/-- The per-duplicate inner loop of modify_graph: add node k:(i+1), then for
each current out-neighbour dest of k add the edge to dest and the mirror edge
from dest (reading graph[dest][k], whose absence raises KeyError, modelled as
none). -/
def inheritOne (g : PyGraph) (k dup : String) : Option PyGraph :=
  let g1 := addNodeG g dup
  (outNbrs g1 k).foldl
    (fun acc dest =>
      match acc with
      | none => none
      | some g2 =>
        let g3 := addEdgeG g2 dup dest
        if hasEdge g3 dest k then some (addEdgeG g3 dest dup) else none)
    (some g1)

/-- All duplicates k:1 .. k:count added in order (the source's
for i in range(count) loop). -/
def addDups (g : PyGraph) (k : String) (count : Nat) : Option PyGraph :=
  (List.range count).foldl
    (fun acc i =>
      match acc with
      | none => none
      | some g1 => inheritOne g1 k (k ++ ":" ++ toString (i + 1)))
    (some g)

/-- Drop every edge with both endpoints in ks (the source's pairwise
remove_edge over product(k_, k_)). -/
def removePairs (g : PyGraph) (ks : List String) : PyGraph :=
  ⟨g.nodes, g.edges.filter (fun e => !(ks.contains e.1 && ks.contains e.2))⟩

/-- The per-label body of modify_graph: labels of count 1 are skipped; others
get their duplicates, and when the original carries a self-loop every edge
among the original-plus-duplicates set is removed. -/
def modifyLoop (g : PyGraph) : List (String × Nat) → Option PyGraph
  | [] => some g
  | (k, c) :: rest =>
    if c = 1 then modifyLoop g rest
    else
      match addDups g k c with
      | none => none
      | some g' =>
        let ks := k :: (List.range c).map (fun i => k ++ ":" ++ toString (i + 1))
        modifyLoop (if (outNbrs g' k).contains k then removePairs g' ks else g') rest

/-- Source modify_graph: collect per-tree label counts, take their maxima,
expand the graph, and return it with the label-to-position lookup
dict(zip(graph.nodes, range(len(graph.nodes)))). -/
def modifyGraph (dags : List Node) (g : PyGraph) : Option (PyGraph × List (String × Nat)) :=
  let counts := dags.foldl (fun acc dag => mergeMax acc (valueCountN dag [])) []
  (modifyLoop g counts).map (fun g' => (g', g'.nodes.enum.map (fun p => (p.2, p.1))))

/-- Number of excursion groups carried by a token: the comma-separated groups
inside its bracket, zero for a bare token. -/
def numSides (x : String) : Nat :=
  if hasBracket x then (pySplit "," (sliceInner x)).length else 0

/-! §5  Walk sampler (src/diffusion.py: state_to_probs and sample_walk). The
transition-scoring model and the np.random.choice draw are external
collaborators, modelled as oracle functions supplied to the sampler; only the
default raw projection mode (softmax and uniform off), the one exercised by
sample_walk's claims, is embedded. -/

/-- Source state_to_probs, raw mode: clip negatives to zero, zero out entries
whose adjacency weight is zero, and normalize when the surviving mass is
positive (otherwise return the masked vector unchanged). -/
def stateToProbs (state adj : List ℚ) : List ℚ :=
  let s1 := state.map (fun x => if 0 ≤ x then x else 0)
  let s2 := (s1.zip adj).map (fun p => if p.2 = 0 then 0 else p.1)
  if 0 < s2.sum then s2.map (· / s2.sum) else s2

/-- Elementwise state + update. -/
def addQ (a b : List ℚ) : List ℚ := a.zipWith (· + ·) b

/-- numpy .max() over the distribution (nonempty in every reachable call). -/
def maxQ (l : List ℚ) : ℚ := l.foldl max (l.headD 0)

/-- The sampler's fixed configuration: index space size, adjacency rows,
label list, loop_back flag and minimum threshold. -/
structure WalkCfg where
  N : Nat
  adj : List (List ℚ)
  allNodes : List String
  loopBack : Bool
  minThresh : ℚ

/-- The mutable loop state of sample_walk. -/
structure WalkState where
  state : List ℚ
  context : List ℚ
  traj : List String
  curNodeInd : Nat
  t : Nat

/-- An external transition-scoring model: (state, context, t) to
(update, new context). -/
def WalkModel : Type := List ℚ → List ℚ → Nat → List ℚ × List ℚ

/-- The projected distribution before masking: state_to_probs(state + update,
adj[cur_node_ind]). -/
def walkProjected (cfg : WalkCfg) (model : WalkModel) (s : WalkState) : List ℚ :=
  stateToProbs (addQ s.state (model s.state s.context s.t).1) (cfg.adj.getD s.curNodeInd [])

/-- The masking loop of sample_walk: zero the head of the last token (no
immediate self-revisit) and every index the colon-order check forbids. -/
def walkMasked (cfg : WalkCfg) (model : WalkModel) (s : WalkState) : List ℚ :=
  (List.range cfg.N).map (fun i =>
    if (!s.traj.isEmpty && extract (s.traj.getLastD "") == i) ||
        checkColonOrder cfg.allNodes s.traj i then 0
    else (walkProjected cfg model s).getD i 0)

/-- The renormalized surviving distribution (all-NaN in the source when the
surviving mass is zero; that case is detected separately by walkStop). -/
def walkDist (cfg : WalkCfg) (model : WalkModel) (s : WalkState) : List ℚ :=
  (walkMasked cfg model s).map (· / (walkMasked cfg model s).sum)

/-- The break test of sample_walk: the normalized vector contains NaN
(surviving mass zero) or its maximum is at or below min_thresh. -/
def walkStop (cfg : WalkCfg) (model : WalkModel) (s : WalkState) : Bool :=
  (walkMasked cfg model s).sum == 0 ||
    decide (maxQ (walkDist cfg model s) ≤ cfg.minThresh)

/-- One-hot vector of length n. -/
def oneHot (n ix : Nat) : List ℚ := (List.replicate n (0 : ℚ)).set ix 1

/-- Result of one iteration of sample_walk's while-loop. -/
inductive StepOut where
  | cont (s : WalkState)
  | done (traj : List String) (good : Bool)
  | crashed

/-- One iteration of sample_walk's loop, for a draw oracle standing in for
np.random.choice: break with good = not loop_back when the distribution is
invalid or its maximum is at or below the threshold; otherwise draw; break
bad on an immediate self-revisit; break good when loop_back and the draw
returns to the start; reject via append_traj (break with good = not
loop_back); otherwise continue from the drawn index. crashed models the
AssertionError append_traj can raise. -/
def sampleBody (cfg : WalkCfg) (model : WalkModel) (draw : List ℚ → Nat) (start : Nat)
    (s : WalkState) : StepOut :=
  let context2 := (model s.state s.context s.t).2
  if walkStop cfg model s then .done s.traj (!cfg.loopBack)
  else
    let after := draw (walkDist cfg model s)
    if extract (s.traj.getLastD "") == after then .done (s.traj ++ [toString after]) false
    else if cfg.loopBack && after == start then .done (s.traj ++ [toString after]) true
    else
      match appendTraj s.traj after with
      | none => .crashed
      | some [] => .done s.traj (!cfg.loopBack)
      | some traj2 =>
        .cont ⟨oneHot cfg.N after, context2, traj2, extract (traj2.getLastD ""), s.t + 1⟩

/-- Overall outcome of sample_walk under a fuel bound. -/
inductive WalkOut where
  | out (traj : List String) (good : Bool)
  | crashed
  | fuelOut
deriving DecidableEq

/-- The while True loop of sample_walk. -/
def sampleLoop (cfg : WalkCfg) (model : WalkModel) (draw : List ℚ → Nat) (start : Nat) :
    Nat → WalkState → WalkOut
  | 0, _ => .fuelOut
  | f + 1, s =>
    match sampleBody cfg model draw start s with
    | .cont s2 => sampleLoop cfg model draw start f s2
    | .done tr g => .out tr g
    | .crashed => .crashed

/-- Source sample_walk from a start index: unit state at start, zero context,
trajectory [str(start)]. -/
def sampleWalk (cfg : WalkCfg) (model : WalkModel) (draw : List ℚ → Nat) (start : Nat)
    (fuel : Nat) : WalkOut :=
  sampleLoop cfg model draw start fuel
    ⟨oneHot cfg.N start, List.replicate cfg.N 0, [toString start], start, 0⟩

/-- Configuration of the sampler counterexample run: two fully connected
indices labelled A and B, no loop-closure requirement, zero threshold. -/
def c6Cfg : WalkCfg := ⟨2, [[1, 1], [1, 1]], ["A", "B"], false, 0⟩

/-- Transition model of the counterexample run: the update is the reversed
state, so the mass always prefers the index not currently occupied; the
context is returned unchanged. -/
def c6Model : WalkModel := fun st ctx _ => (st.reverse, ctx)

/-- Draw oracle of the counterexample run: every surviving distribution in
the run is one-hot, so the draw picks its unit entry, exactly as
np.random.choice would with probability one. -/
def c6Draw : List ℚ → Nat := fun p => p.findIdx (fun q => q == 1)

/-- The loop state right before the counterexample's final iteration: the
walk 0, 1, back-to-0 has been merged into the single token 0[->1]. -/
def c6S3 : WalkState := ⟨[1, 0], [0, 0], ["0[->1]"], 0, 2⟩

/-! §6  Verification supports for the seed-0 self-check of
DiffusionProcess.__init__ (claim about augment_walk_order composed with
compute_dfs): a compositional form of the permuted depth-first walk, proven
equal to dfsRun below, and the decomposition of its output into per-chain-node
segments, over which the indices loop and the slicing loop of
augment_walk_order are analysed. -/

/-- Concatenation of (chain node, excursion block) segments: each main-chain
node followed by the walk steps taken before reaching the next chain node. -/
def flattenSegs (segs : List (Node × List Node)) : List Node :=
  segs.flatMap (fun p => p.1 :: p.2)

/-- Start position of each segment head inside the flattened list, counting
from offset j: exactly the indices the scanning loop of augment_walk_order
records when each block avoids the next chain node. -/
def cumStarts : List (Node × List Node) → Nat → List Nat
  | [], _ => []
  | s :: rest, j => j :: cumStarts rest (j + 1 + s.2.length)

/-- Matching condition for the indices loop of augment_walk_order: no
excursion block contains the next segment head (finally the closing chain
element), so the pointer into the main chain advances exactly at segment
heads. -/
def segsOk : List (Node × List Node) → Node → Prop
  | [], _ => True
  | [s], closing => closing ∉ s.2
  | s :: s2 :: rest, closing => s2.1 ∉ s.2 ∧ segsOk (s2 :: rest) closing

/-- Compositional form of dfsRun: the block of output a node contributes
independently of the accumulated prefix. The inr state carries the remaining
children together with the value of the accumulator's last element, which is
what the source's re-appended span starts from after a side-chain subtree;
dfsRun_eq_dfsB below proves the two walks equal. -/
def dfsB (pm : List (Nat × List Node)) (usePm : Bool) :
    Nat → (Node ⊕ (List Node × Node)) → Option (List Node)
  | 0, _ => none
  | f + 1, .inl n =>
    match orderedChilds pm usePm n with
    | none => none
    | some cs => (dfsB pm usePm f (.inr (cs, n))).map (n :: ·)
  | _ + 1, .inr ([], _) => some []
  | f + 1, .inr (c :: cs, lastE) =>
    if c.id ≠ 0 then
      match dfsB pm usePm f (.inl c) with
      | none => none
      | some bc =>
        (dfsB pm usePm f
            (.inr (cs, if c.sideChain then lastE else bc.getLastD lastE))).map
          (fun rest =>
            (if c.sideChain then bc ++ ((lastE :: bc).dropLast).reverse else bc) ++ rest)
    else dfsB pm usePm f (.inr (cs, lastE))

/-- Distinctness of the nonzero node ids of a tree; id 0 marks the root and
the structural sentinels, which may repeat. -/
def nodupNZ (t : Node) : Prop :=
  (((allNodes t).map Node.id).filter (fun i => i ≠ 0)).Nodup

/-- Tree whose root carries two side-chain children and no main-chain child,
so its main chain closes immediately back to the root. -/
def c1Bad : Node := .mk 0 "R" false [.mk 1 "A" true [], .mk 2 "B" true []]

/-- Tree whose root carries one main-chain child and one side-chain child. -/
def c1Good : Node := .mk 0 "R" false [.mk 1 "M" false [], .mk 2 "S" true []]

/-! ================  Theorems  ================ -/

/-! Helper lemmas for the seed decomposition (claim C9). -/

theorem seedFold_snd (l : List Node) :
    ∀ (pm : List (Nat × List Node)) (s : Nat),
      (l.foldl
        (fun acc a =>
          let sc := sideChilds a
          let k := Nat.factorial sc.length
          ((a.id, (pyPermutations sc.length sc).getD (acc.2 % k) []) :: acc.1, acc.2 / k))
        (pm, s)).2 =
      s / (l.map (fun a => Nat.factorial (sideChilds a).length)).prod := by
  induction l with
  | nil => intro pm s; simp
  | cons a t ih =>
    intro pm s
    simp only [List.foldl_cons, List.map_cons, List.prod_cons]
    rw [ih]
    rw [Nat.div_div_eq_div_mul]

theorem seedRemainder_eq_div (mc : List Node) (seed : Nat) :
    seedRemainder mc seed = seed / totalOf mc := by
  unfold seedRemainder seedFold totalOf
  rw [seedFold_snd]
  have h : ((mc.dropLast).reverse.map
        (fun a => Nat.factorial (sideChilds a).length)).prod =
      ((mc.dropLast).map (fun a => Nat.factorial (sideChilds a).length)).prod := by
    rw [List.map_reverse, List.prod_reverse]
  rw [h]

theorem totalOf_pos (mc : List Node) : 0 < totalOf mc := by
  unfold totalOf
  apply List.prod_pos
  intro a ha
  simp only [List.mem_map] at ha
  obtain ⟨b, _, hb⟩ := ha
  exact hb ▸ Nat.factorial_pos _

/-- C9: compute_dfs decomposes the seed into mixed-radix digits with radix
factorial(side-chain child count) per main-chain node, taken from the chain's
tail backward (this is the seedFold definition it is stated over); the
remainder left after removing all digits is zero exactly when the seed lies
in [0, total), and a seed outside that range fails the zero-remainder assert,
making compute_dfs fail. -/
theorem c9_seed_remainder_zero_iff (t : Node) (mc : List Node) (seed : Nat) :
    (seedRemainder mc seed = 0 ↔ seed < totalOf mc) ∧
    (seedRemainder mc seed ≠ 0 → computeDfs t mc seed = none) := by
  constructor
  · rw [seedRemainder_eq_div]
    exact Nat.div_eq_zero_iff (totalOf_pos mc)
  · intro h
    unfold computeDfs
    simp [h]

/-- Witness for C9 at a concrete tree: the main chain of the tree with one
main child and one side child has total 1, so seed 0 leaves remainder 0 while
seed 3 is out of range and makes compute_dfs fail its zero-remainder assert. -/
theorem c9_seed_remainder_zero_iff_witness :
    seedRemainder [Node.mk 0 "R" false [Node.mk 1 "M" false [], Node.mk 2 "S" true []],
        Node.mk 1 "M" false [], Node.mk 0 "R" false [Node.mk 1 "M" false [],
        Node.mk 2 "S" true []]] 0 = 0 ∧
    computeDfs (Node.mk 0 "R" false [Node.mk 1 "M" false [], Node.mk 2 "S" true []])
        [Node.mk 0 "R" false [Node.mk 1 "M" false [], Node.mk 2 "S" true []],
          Node.mk 1 "M" false [], Node.mk 0 "R" false [Node.mk 1 "M" false [],
          Node.mk 2 "S" true []]] 3 = none := by
  constructor
  · exact (c9_seed_remainder_zero_iff
      (Node.mk 0 "R" false [Node.mk 1 "M" false [], Node.mk 2 "S" true []]) _ 0).1.mpr
      (by decide)
  · exact (c9_seed_remainder_zero_iff
      (Node.mk 0 "R" false [Node.mk 1 "M" false [], Node.mk 2 "S" true []]) _ 3).2 (by decide)

/-- C5: the two literal encoder scenarios of run_checks hold on the embedded
append_traj: append_traj(['396','508[->397]'], 396) returns
['396[->508->397]'] and append_traj(['90','50[->8]','4[->25]'], 50) returns
['90','50[->8,->4->25]']. -/
theorem c5_literal_append_checks :
    appendTraj ["396", "508[->397]"] 396 = some ["396[->508->397]"] ∧
    appendTraj ["90", "50[->8]", "4[->25]"] 50 = some ["90", "50[->8,->4->25]"] :=
  ⟨by decide, by decide⟩

/-- C3, evaluation at the failing input: a tree whose root and two children
all carry label A (so A is used three times) over the graph with nodes A, B
and the symmetric edge pair: modify_graph adds the three duplicates A:1, A:2,
A:3 (its for-loop ranges over range(count), not range(count - 1)), each
inheriting both edge directions with B, although the per-tree count is 3 and
both the claim and the source's own docstring (k replicates for a group used
k times) call for two duplicates only. -/
theorem c3_duplicate_count_eval :
    valueCountN (Node.mk 0 "A" false [Node.mk 1 "A" true [], Node.mk 2 "A" true []]) [] =
      [("A", 3)] ∧
    (modifyGraph [Node.mk 0 "A" false [Node.mk 1 "A" true [], Node.mk 2 "A" true []]]
        ⟨["A", "B"], [("A", "B"), ("B", "A")]⟩).map (fun p => p.1.nodes) =
      some ["A", "B", "A:1", "A:2", "A:3"] ∧
    (modifyGraph [Node.mk 0 "A" false [Node.mk 1 "A" true [], Node.mk 2 "A" true []]]
        ⟨["A", "B"], [("A", "B"), ("B", "A")]⟩).map (fun p => p.1.edges) =
      some [("A", "B"), ("B", "A"), ("A:1", "B"), ("B", "A:1"), ("A:2", "B"), ("B", "A:2"),
        ("A:3", "B"), ("B", "A:3")] := by
  refine ⟨by decide, by decide, by decide⟩

/-- C4, counterexample to the claim as stated: with trajectory ['31'] and
next index 3, the index 3 does not occur in the flat decoded list ['31'], yet
append_traj does not append it as a new bare token: the source tests
str(after) in x by substring containment, '3' is a substring of '31', and the
single-token guard rejects, returning the empty list. -/
theorem c4_counterexample :
    (decodeTraj ["31"]).contains "3" = false ∧ appendTraj ["31"] 3 = some [] :=
  ⟨by decide, by decide⟩

/-- C7, counterexample to the claim as stated: with labels ['P3', 'P31:1'],
one visited token of label 'P31:1' and candidate index 0 of label 'P3' (bare,
suffix 0, hence no required predecessors), the claim forbids the candidate
only if some P3:j with j above 0 was visited; no visited label has group P3,
yet check_colon_order returns true because its occurrence test uses substring
containment and 'P3' occurs inside 'P31:1', whose suffix 1 exceeds 0. -/
theorem c7_counterexample :
    checkColonOrder ["P3", "P31:1"] ["1"] 0 = true ∧
    (∀ x ∈ ["1"], groupPart (["P3", "P31:1"].getD (extract x) "") ≠ "P3") ∧
    (if hasColon "P3" then colonSuffix "P3" else 0) = 0 :=
  ⟨by decide, by decide, by decide⟩

/-! Helper lemmas for the colon-order characterization (claim C7). -/

theorem isPrefChars_append_self (g : List Char) : ∀ s, isPrefChars g (g ++ s) = true := by
  induction g with
  | nil => intro s; rfl
  | cons a t ih => intro s; simp [isPrefChars, ih]

theorem containsChars_of_pref (n h : List Char) (hp : isPrefChars n h = true) :
    containsChars n h = true := by
  cases h with
  | nil =>
    cases n with
    | nil => rfl
    | cons a t => simp [isPrefChars] at hp
  | cons b bs => simp [containsChars, hp]

theorem strIn_append_self (g s : String) : strIn g (g ++ s) = true := by
  unfold strIn
  have : (g ++ s).toList = g.toList ++ s.toList := by
    simp [String.toList, String.data_append]
  rw [this]
  exact containsChars_of_pref _ _ (isPrefChars_append_self _ _)

theorem prevLabels_mem (all_nodes traj : List String) (grp p : String) :
    p ∈ prevLabels all_nodes traj grp ↔
      ∃ x ∈ traj, strIn grp (all_nodes.getD (extract x) "") = true ∧
        all_nodes.getD (extract x) "" = p := by
  unfold prevLabels
  simp only [List.mem_map, List.mem_filter]
  constructor
  · rintro ⟨x, ⟨hx, hs⟩, he⟩
    exact ⟨x, hx, hs, he⟩
  · rintro ⟨x, hx, hs, he⟩
    exact ⟨x, ⟨hx, hs⟩, he⟩

/-- C7, amended: check_colon_order forbids candidate index i of label with
group k and suffix n (bare labels mean n = 0) exactly when either some
previously visited token's head label contains k as a substring and carries a
colon suffix above n, or some required predecessor label k:(n-1), ..., k:0
(bare k for suffix 0) is not the head label of any previously visited token.
The claim's occurrence test must be read as substring containment (the source
tests grp in label), as the counterexample forces; the predecessor clause is
as the claim states it. -/
theorem c7_colon_order_characterization (all_nodes traj : List String) (after : Nat) :
    checkColonOrder all_nodes traj after = true ↔
      ((∃ x ∈ traj,
          strIn (groupPart (all_nodes.getD after "")) (all_nodes.getD (extract x) "") = true ∧
          hasColon (all_nodes.getD (extract x) "") = true ∧
          (if hasColon (all_nodes.getD after "") then colonSuffix (all_nodes.getD after "")
            else 0) < colonSuffix (all_nodes.getD (extract x) "")) ∨
       (∃ i, i < (if hasColon (all_nodes.getD after "") then
            colonSuffix (all_nodes.getD after "") else 0) ∧
          ∀ x ∈ traj,
            all_nodes.getD (extract x) "" ≠
              groupPart (all_nodes.getD after "") ++
                (if i != 0 then ":" ++ toString i else ""))) := by
  unfold checkColonOrder
  simp only [Bool.or_eq_true, List.any_eq_true, Bool.and_eq_true, decide_eq_true_eq,
    Bool.not_eq_true', List.mem_range]
  constructor
  · rintro (⟨p, hp, hc, hlt⟩ | ⟨i, hi, hnc⟩)
    · left
      obtain ⟨x, hx, hs, he⟩ := (prevLabels_mem _ _ _ _).1 hp
      exact ⟨x, hx, hs, by rw [he]; exact hc, by rw [he]; exact hlt⟩
    · right
      refine ⟨i, hi, ?_⟩
      intro x hx he
      have hmem : (groupPart (all_nodes.getD after "") ++
          (if i != 0 then ":" ++ toString i else "")) ∈
          prevLabels all_nodes traj (groupPart (all_nodes.getD after "")) := by
        refine (prevLabels_mem _ _ _ _).2 ⟨x, hx, ?_, he⟩
        rw [he]
        exact strIn_append_self _ _
      have h2 : (prevLabels all_nodes traj
          (groupPart (all_nodes.getD after ""))).contains
          (groupPart (all_nodes.getD after "") ++
            (if i != 0 then ":" ++ toString i else "")) = true := List.elem_iff.2 hmem
      rw [h2] at hnc
      exact Bool.noConfusion hnc
  · rintro (⟨x, hx, hs, hc, hlt⟩ | ⟨i, hi, hall⟩)
    · exact Or.inl ⟨_, (prevLabels_mem _ _ _ _).2 ⟨x, hx, hs, rfl⟩, hc, hlt⟩
    · right
      refine ⟨i, hi, ?_⟩
      cases h : (prevLabels all_nodes traj
          (groupPart (all_nodes.getD after ""))).contains
          (groupPart (all_nodes.getD after "") ++
            (if i != 0 then ":" ++ toString i else "")) with
      | false => rfl
      | true =>
        obtain ⟨x, hx, _, he⟩ := (prevLabels_mem _ _ _ _).1 (List.elem_iff.1 h)
        exact absurd he (hall x hx)

/-! Helper lemmas for the append_traj characterization (claim C4). -/

theorem decodeTraj_length_ge (traj : List String) :
    traj.length ≤ (decodeTraj traj).length := by
  induction traj with
  | nil => simp [decodeTraj]
  | cons x xs ih =>
    simp only [decodeTraj, List.flatMap_cons, List.length_append, List.length_cons]
    have hx : 1 ≤ (if hasBracket x then extract_sides x else [x]).length := by
      by_cases h : hasBracket x
      · simp [h, extract_sides]
      · simp [h]
    have : xs.length ≤ (decodeTraj xs).length := ih
    unfold decodeTraj at this
    omega

theorem getD_mem_of_lt (l : List String) (n : Nat) (d : String) (h : n < l.length) :
    l.getD n d ∈ l := by
  rw [List.getD_eq_getElem?_getD, List.getElem?_eq_getElem h]
  exact List.getElem_mem h

/-- C4, amended: append_traj appends a bare token exactly when no decoded
entry contains str(next_index) as a substring (the source's occurrence test is
substring containment, not list membership, as the counterexample forces);
when some entry does contain it, the call returns a non-empty merged
trajectory exactly when exactly one decoded entry contains it, the trajectory
has at least two tokens, the second-to-last token's bare head equals
str(next_index), and the last token carries at most one excursion group; in
every other containing case it returns the empty rejection list. Stated for
trajectories whose bracketed tokens end with ']' (otherwise the source's
assert can fire). -/
theorem c4_append_characterization (traj : List String) (after : Nat)
    (hwf : ∀ x ∈ traj, hasBracket x = true → endsBracket x = true) :
    (occurCount traj after = 0 → appendTraj traj after = some (traj ++ [toString after])) ∧
    (occurCount traj after ≠ 0 →
      (((∃ l, appendTraj traj after = some l ∧ l ≠ []) ↔
          (occurCount traj after = 1 ∧ 2 ≤ traj.length ∧
           headPart (traj.getD (traj.length - 2) "") = toString after ∧
           numSides (traj.getLastD "") ≤ 1)) ∧
       (¬(occurCount traj after = 1 ∧ 2 ≤ traj.length ∧
           headPart (traj.getD (traj.length - 2) "") = toString after ∧
           numSides (traj.getLastD "") ≤ 1) →
         appendTraj traj after = some []))) := by
  constructor
  · intro h0
    unfold appendTraj
    simp [h0]
  · intro hne
    have hb : (occurCount traj after != 0) = true := by simpa using hne
    unfold appendTraj
    rw [if_pos hb]
    by_cases h1 : ((decodeTraj traj).length == 1 || occurCount traj after != 1) = true
    · rw [if_pos h1]
      have hnC : ¬(occurCount traj after = 1 ∧ 2 ≤ traj.length ∧
          headPart (traj.getD (traj.length - 2) "") = toString after ∧
          numSides (traj.getLastD "") ≤ 1) := by
        rintro ⟨hocc, hlen, _, _⟩
        simp only [Bool.or_eq_true, beq_iff_eq, bne_iff_ne, ne_eq] at h1
        rcases h1 with h1 | h1
        · have := decodeTraj_length_ge traj
          omega
        · exact h1 hocc
      refine ⟨⟨?_, fun hC => absurd hC hnC⟩, fun _ => rfl⟩
      rintro ⟨l, hl, hlne⟩
      cases hl
      exact absurd rfl hlne
    · rw [if_neg h1]
      simp only [Bool.or_eq_true, beq_iff_eq, bne_iff_ne, ne_eq, not_or, not_not] at h1
      obtain ⟨hd1, hocc1⟩ := h1
      by_cases h2 : (decide (traj.length < 2) ||
          (toString after != headPart (traj.getD (traj.length - 2) ""))) = true
      · rw [if_pos h2]
        have hnC : ¬(occurCount traj after = 1 ∧ 2 ≤ traj.length ∧
            headPart (traj.getD (traj.length - 2) "") = toString after ∧
            numSides (traj.getLastD "") ≤ 1) := by
          rintro ⟨_, hlen, hhd, _⟩
          simp only [Bool.or_eq_true, decide_eq_true_eq, bne_iff_ne, ne_eq] at h2
          rcases h2 with h2 | h2
          · omega
          · exact h2 hhd.symm
        refine ⟨⟨?_, fun hC => absurd hC hnC⟩, fun _ => rfl⟩
        rintro ⟨l, hl, hlne⟩
        cases hl
        exact absurd rfl hlne
      · rw [if_neg h2]
        simp only [Bool.or_eq_true, decide_eq_true_eq, bne_iff_ne, ne_eq, not_or, not_not,
          not_lt] at h2
        obtain ⟨hlen2, hhd⟩ := h2
        have hmem2 : traj.getD (traj.length - 2) "" ∈ traj :=
          getD_mem_of_lt _ _ _ (by omega)
        by_cases hb2 : hasBracket (traj.getD (traj.length - 2) "") = true
        · by_cases hb1 : hasBracket (traj.getLastD "") = true
          · by_cases hs : (pySplit "," (sliceInner (traj.getLastD ""))).length > 1
            · rw [if_pos hb2, if_pos hb1, if_pos hs]
              have hnC : ¬(occurCount traj after = 1 ∧ 2 ≤ traj.length ∧
                  headPart (traj.getD (traj.length - 2) "") = toString after ∧
                  numSides (traj.getLastD "") ≤ 1) := by
                rintro ⟨_, _, _, hns⟩
                rw [numSides, if_pos hb1] at hns
                omega
              refine ⟨⟨?_, fun hC => absurd hC hnC⟩, fun _ => rfl⟩
              rintro ⟨l, hl, hlne⟩
              cases hl
              exact absurd rfl hlne
            · have hend : endsBracket (traj.getD (traj.length - 2) "") = true :=
                hwf _ hmem2 hb2
              rw [if_pos hb2, if_pos hb1, if_neg hs,
                if_neg (by simp only [hend, Bool.not_true]; decide)]
              have hC : occurCount traj after = 1 ∧ 2 ≤ traj.length ∧
                  headPart (traj.getD (traj.length - 2) "") = toString after ∧
                  numSides (traj.getLastD "") ≤ 1 :=
                ⟨hocc1, hlen2, hhd.symm, by rw [numSides, if_pos hb1]; omega⟩
              exact ⟨⟨fun _ => hC, fun _ => ⟨_, rfl, by simp⟩⟩, fun h => absurd hC h⟩
          · rw [if_pos hb2, if_neg hb1]
            have hC : occurCount traj after = 1 ∧ 2 ≤ traj.length ∧
                headPart (traj.getD (traj.length - 2) "") = toString after ∧
                numSides (traj.getLastD "") ≤ 1 :=
              ⟨hocc1, hlen2, hhd.symm, by rw [numSides, if_neg hb1]; omega⟩
            exact ⟨⟨fun _ => hC, fun _ => ⟨_, rfl, by simp⟩⟩, fun h => absurd hC h⟩
        · by_cases hb1 : hasBracket (traj.getLastD "") = true
          · by_cases hs : (pySplit "," (sliceInner (traj.getLastD ""))).length > 1
            · rw [if_neg hb2, if_pos hb1, if_pos hs]
              have hnC : ¬(occurCount traj after = 1 ∧ 2 ≤ traj.length ∧
                  headPart (traj.getD (traj.length - 2) "") = toString after ∧
                  numSides (traj.getLastD "") ≤ 1) := by
                rintro ⟨_, _, _, hns⟩
                rw [numSides, if_pos hb1] at hns
                omega
              refine ⟨⟨?_, fun hC => absurd hC hnC⟩, fun _ => rfl⟩
              rintro ⟨l, hl, hlne⟩
              cases hl
              exact absurd rfl hlne
            · rw [if_neg hb2, if_pos hb1, if_neg hs]
              have hC : occurCount traj after = 1 ∧ 2 ≤ traj.length ∧
                  headPart (traj.getD (traj.length - 2) "") = toString after ∧
                  numSides (traj.getLastD "") ≤ 1 :=
                ⟨hocc1, hlen2, hhd.symm, by rw [numSides, if_pos hb1]; omega⟩
              exact ⟨⟨fun _ => hC, fun _ => ⟨_, rfl, by simp⟩⟩, fun h => absurd hC h⟩
          · rw [if_neg hb2, if_neg hb1]
            have hC : occurCount traj after = 1 ∧ 2 ≤ traj.length ∧
                headPart (traj.getD (traj.length - 2) "") = toString after ∧
                numSides (traj.getLastD "") ≤ 1 :=
              ⟨hocc1, hlen2, hhd.symm, by rw [numSides, if_neg hb1]; omega⟩
            exact ⟨⟨fun _ => hC, fun _ => ⟨_, rfl, by simp⟩⟩, fun h => absurd hC h⟩

/-- Witness for C4 at concrete inputs: for ['7'] and next index 5 (contained
in no decoded entry) the characterization yields the bare append, and for
['31'] and next index 3 (substring-contained in the single decoded entry) it
yields the empty rejection. -/
theorem c4_append_characterization_witness :
    appendTraj ["7"] 5 = some (["7"] ++ [toString 5]) ∧
    appendTraj ["31"] 3 = some [] := by
  constructor
  · exact (c4_append_characterization ["7"] 5 (by decide)).1 (by decide)
  · exact ((c4_append_characterization ["31"] 3 (by decide)).2 (by decide)).2 (by
      rintro ⟨_, hlen, _, _⟩
      simp at hlen)

/-! Helper lemmas for the diffusion step (claims C2 and C10). -/

theorem sum_replicate_set (v : ℚ) :
    ∀ (n ix : Nat), ix < n → ((List.replicate n (0 : ℚ)).set ix v).sum = v := by
  intro n
  induction n with
  | zero => intro ix h; omega
  | succ m ih =>
    intro ix h
    cases ix with
    | zero => simp [List.replicate_succ, List.sum_replicate]
    | succ j =>
      simp only [List.replicate_succ, List.set_cons_succ, List.sum_cons]
      rw [ih j (by omega)]
      ring

/-- C2, amended: in deterministic-replay mode every successful step produces
a state of total mass exactly 1 (and so never trips the deviation check);
the check itself is one-sided, flagging only masses exceeding 1 + 0.01, so in
probabilistic split mode a reachable state can silently fall to total mass 0,
as the counterexample shows. -/
theorem c2_det_mass_conservation (p p' : Proc) (b : Bool) (hsplit : p.split = false)
    (h : stepProc p = .ok (p', b)) : p'.state.sum = 1 ∧ b = false := by
  unfold stepProc at h
  simp only [hsplit, Bool.false_eq_true, if_false, buildState, List.length_replicate] at h
  cases hl : lookupVal p.lookup (p.dfsOrder.getD ((p.t + 1) % p.numNodes) default).val with
  | none =>
    rw [hl] at h
    simp at h
  | some ix =>
    rw [hl] at h
    simp only [] at h
    by_cases hlt : ix < p.state.length
    · rw [if_pos hlt] at h
      simp only [buildState, Except.ok.injEq, Prod.mk.injEq] at h
      have hsum : ((List.replicate p.state.length (0 : ℚ)).set ix 1).sum = 1 :=
        sum_replicate_set 1 _ _ hlt
      have hb : (decide ((1 : ℚ) / 100 <
          ((List.replicate p.state.length (0 : ℚ)).set ix 1).sum - 1)) = false := by
        rw [hsum]
        norm_num
      obtain ⟨hp', hbb⟩ := h
      constructor
      · rw [← hp']
        exact hsum
      · rw [← hbb, hb]
        simp
    · rw [if_neg hlt] at h
      exact absurd h (by simp)

/-- Witness for C2 at a concrete deterministic process: one step of the
process over lookup {R: 0} with walk order [R] succeeds with state [1] of
mass 1 and no trap. -/
theorem c2_det_mass_conservation_witness :
    (⟨[("R", 0)], Node.mk 0 "R" false [], false, false, [Node.mk 0 "R" false []], 1, 1,
        [1], [(Node.mk 0 "R" false [], 1)]⟩ : Proc).state.sum = 1 ∧ false = false := by
  refine c2_det_mass_conservation
    ⟨[("R", 0)], Node.mk 0 "R" false [], false, false, [Node.mk 0 "R" false []], 1, 0,
      [0], []⟩ _ _ rfl ?_
  unfold stepProc
  simp only [Bool.false_eq_true, if_false, buildState, List.length_replicate]
  have hl : lookupVal [("R", 0)]
      (([Node.mk 0 "R" false []].getD ((0 + 1) % 1) default)).val = some 0 := by decide
  rw [hl]
  norm_num [buildState]

/-- C2, counterexample to the claim as stated: in split mode with side_chains
off, two successful steps from the reset state of the one-side-chain tree
drive the probability vector to total mass 0 with no trap ever signalled: the
deviation check new_state.sum() - 1. > 0.01 is one-sided and a mass of 0 is a
silent outcome, although it deviates from 1 by far more than the 0.01
tolerance. -/
theorem c2_counterexample :
    resetProc ⟨[("R", 0), ("C", 1)], c2Dag, false, true, [], 1, 0, [0, 0], []⟩ = c2Proc0 ∧
    stepProc c2Proc0 = .ok (c2Proc1, false) ∧
    stepProc c2Proc1 = .ok (c2Proc2, false) ∧
    c2Proc2.state.sum = 0 ∧ (1 : ℚ) - c2Proc2.state.sum > 1 / 100 := by
  refine ⟨?_, ?_, ?_, by norm_num [c2Proc2], by norm_num [c2Proc2]⟩
  · have hfind : lookupVal [("R", 0), ("C", 1)] c2Dag.val = some 0 := by decide
    unfold resetProc
    simp only [hfind]
    norm_num [c2Proc0, c2Dag, List.replicate_succ]
  · have hfind : lookupVal [("R", 0), ("C", 1)] "C" = some 1 := by decide
    unfold stepProc
    norm_num [c2Proc0, c2Proc1, c2Dag, splitNewFrontier, addFrontier, buildState, hfind,
      Node.sideChain, Node.children, Node.val, List.replicate_succ]
  · unfold stepProc
    norm_num [c2Proc1, c2Proc2, c2Dag, splitNewFrontier, addFrontier, buildState,
      Node.sideChain, Node.children, Node.val, List.replicate_succ]

/-! Helper lemmas for the graph step (claim C10). -/

theorem stepEach_ok (ps ps' : List Proc) (h : stepEach ps = .ok ps') :
    ps'.length = ps.length ∧
    ∀ i, i < ps.length →
      (stepProc (ps.getD i default) = .error .keyErr →
        ps'.getD i default = ps.getD i default) ∧
      (∀ q b, stepProc (ps.getD i default) = .ok (q, b) → ps'.getD i default = q) := by
  induction ps generalizing ps' with
  | nil =>
    rw [stepEach] at h
    cases h
    exact ⟨rfl, by intro i hi; exact absurd hi (by simp)⟩
  | cons p rest ih =>
    rw [stepEach] at h
    cases hs : stepProc p with
    | ok pb =>
      rw [hs] at h
      cases hrest : stepEach rest with
      | ok rest' =>
        rw [hrest] at h
        cases h
        obtain ⟨hlen, hidx⟩ := ih rest' hrest
        refine ⟨by simp [hlen], ?_⟩
        intro i hi
        cases i with
        | zero =>
          refine ⟨fun hk => ?_, fun q b hq => ?_⟩
          · rw [List.getD_cons_zero, hs] at hk
            exact absurd hk (by simp)
          · rw [List.getD_cons_zero, hs] at hq
            injection hq with h2
            simp [List.getD_cons_zero, h2]
        | succ j =>
          simpa [List.getD_cons_succ] using hidx j (by simpa using hi)
      | error e => rw [hrest] at h; exact absurd h (by simp [Except.map])
    | error e =>
      cases e with
      | keyErr =>
        rw [hs] at h
        cases hrest : stepEach rest with
        | ok rest' =>
          rw [hrest] at h
          cases h
          obtain ⟨hlen, hidx⟩ := ih rest' hrest
          refine ⟨by simp [hlen], ?_⟩
          intro i hi
          cases i with
          | zero =>
            refine ⟨fun _ => rfl, fun q b hq => ?_⟩
            rw [List.getD_cons_zero, hs] at hq
            exact absurd hq (by simp)
          | succ j =>
            simpa [List.getD_cons_succ] using hidx j (by simpa using hi)
        | error e => rw [hrest] at h; exact absurd h (by simp [Except.map])
      | idxErr => rw [hs] at h; exact absurd h (by simp)

/-- C10: a successful DiffusionGraph.step advances the graph's own counter by
one and steps every process, except that a process whose step raises KeyError
is silently kept with its t, state and frontier exactly as before (the embedded
step builds its new state completely before committing anything, matching the
source's assignment order, so an aborted step leaves the process untouched);
in deterministic mode the step raises KeyError precisely when the next walk
node's label is absent from the shared index lookup. -/
theorem c10_keyerror_skip (g g' : GraphState) (h : graphStep g = .ok g') :
    g'.t = g.t + 1 ∧ g'.processes.length = g.processes.length ∧
    (∀ i, i < g.processes.length →
      (stepProc (g.processes.getD i default) = .error .keyErr →
        g'.processes.getD i default = g.processes.getD i default) ∧
      (∀ q b, stepProc (g.processes.getD i default) = .ok (q, b) →
        g'.processes.getD i default = q)) ∧
    (∀ p : Proc, p.split = false →
      (stepProc p = .error .keyErr ↔
        lookupVal p.lookup (p.dfsOrder.getD ((p.t + 1) % p.numNodes) default).val = none)) := by
  unfold graphStep at h
  cases hse : stepEach g.processes with
  | ok ps' =>
    rw [hse] at h
    cases h
    obtain ⟨hlen, hidx⟩ := stepEach_ok _ _ hse
    refine ⟨rfl, hlen, hidx, ?_⟩
    intro p hsplit
    unfold stepProc
    rw [hsplit]
    simp only [Bool.false_eq_true, if_false]
    simp only [Bool.false_eq_true, if_false, buildState, List.length_replicate]
    cases hl : lookupVal p.lookup (p.dfsOrder.getD ((p.t + 1) % p.numNodes) default).val with
    | none => simp [hl]
    | some ix =>
      simp only [hl]
      by_cases hlt : ix < p.state.length
      · rw [if_pos hlt]
        simp [buildState]
      · rw [if_neg hlt]
        simp
  | error e => rw [hse] at h; exact absurd h (by simp [Except.map])

/-- Witness for C10: a graph holding one process whose next label is absent
from the lookup steps successfully, keeps that process unchanged at index 0,
and its counter moves from 5 to 6; the same process's step raises KeyError by
the deterministic characterization. -/
theorem c10_keyerror_skip_witness :
    (⟨[(⟨[("X", 0)], Node.mk 0 "R" false [], false, false, [Node.mk 0 "R" false []], 1, 0,
        [0], []⟩ : Proc)], 6⟩ : GraphState).t = 5 + 1 ∧
    stepProc (⟨[("X", 0)], Node.mk 0 "R" false [], false, false,
        [Node.mk 0 "R" false []], 1, 0, [0], []⟩ : Proc) = .error .keyErr := by
  have h := c10_keyerror_skip
    ⟨[⟨[("X", 0)], Node.mk 0 "R" false [], false, false, [Node.mk 0 "R" false []], 1, 0,
        [0], []⟩], 5⟩
    ⟨[⟨[("X", 0)], Node.mk 0 "R" false [], false, false, [Node.mk 0 "R" false []], 1, 0,
        [0], []⟩], 6⟩
    (by rw [graphStep, stepEach]
        have hk : stepProc (⟨[("X", 0)], Node.mk 0 "R" false [], false, false,
            [Node.mk 0 "R" false []], 1, 0, [0], []⟩ : Proc) = .error .keyErr := by
          rw [stepProc]
          simp only [Bool.false_eq_true, if_false]
          rw [buildState]
          have : lookupVal [("X", 0)]
              (([Node.mk 0 "R" false []].getD ((0 + 1) % 1) default)).val = none := by decide
          rw [this]
        rw [hk, stepEach]
        rfl)
  refine ⟨h.1, ?_⟩
  exact (h.2.2.2 _ rfl).2 (by decide)

/-! Helper lemmas and concrete run for the sampler (claim C6). -/

theorem c6_step1 :
    sampleBody c6Cfg c6Model c6Draw 0 ⟨[1, 0], [0, 0], ["0"], 0, 0⟩ =
      .cont ⟨[0, 1], [0, 0], ["0", "1"], 1, 1⟩ := by
  have h1 : checkColonOrder ["A", "B"] ["0"] 0 = false := by decide
  have h2 : checkColonOrder ["A", "B"] ["0"] 1 = false := by decide
  have h3 : extract "0" = 0 := by decide
  have h4 : appendTraj ["0"] 1 = some ["0", "1"] := by decide
  have h5 : extract "1" = 1 := by decide
  have e0 : ((0 : ℚ) == 1) = false := by rw [beq_eq_false_iff_ne]; norm_num
  have e1 : ((1 : ℚ) == 1) = true := by rw [beq_iff_eq]
  have h6 : List.findIdx (fun q : ℚ => q == 1) [0, 1] = 1 := by
    simp [List.findIdx_cons, e0, e1]
  norm_num [sampleBody, walkStop, walkDist, walkMasked, walkProjected, stateToProbs,
    addQ, oneHot, maxQ, c6Cfg, c6Model, c6Draw, h1, h2, h3, h4, h5, h6, List.range_succ,
    List.replicate_succ]

theorem c6_step2 :
    sampleBody c6Cfg c6Model c6Draw 0 ⟨[0, 1], [0, 0], ["0", "1"], 1, 1⟩ =
      .cont ⟨[1, 0], [0, 0], ["0[->1]"], 0, 2⟩ := by
  have h1 : checkColonOrder ["A", "B"] ["0", "1"] 0 = false := by decide
  have h2 : checkColonOrder ["A", "B"] ["0", "1"] 1 = false := by decide
  have h3 : extract "1" = 1 := by decide
  have h4 : appendTraj ["0", "1"] 0 = some ["0[->1]"] := by decide
  have h5 : extract "0[->1]" = 0 := by decide
  have e0 : ((0 : ℚ) == 1) = false := by rw [beq_eq_false_iff_ne]; norm_num
  have e1 : ((1 : ℚ) == 1) = true := by rw [beq_iff_eq]
  have h6 : List.findIdx (fun q : ℚ => q == 1) [1, 0] = 0 := by
    simp [List.findIdx_cons, e0, e1]
  norm_num [sampleBody, walkStop, walkDist, walkMasked, walkProjected, stateToProbs,
    addQ, oneHot, maxQ, c6Cfg, c6Model, c6Draw, h1, h2, h3, h4, h5, h6, List.range_succ,
    List.replicate_succ]

theorem c6_step3 :
    sampleBody c6Cfg c6Model c6Draw 0 c6S3 = .done ["0[->1]"] true := by
  have h1 : checkColonOrder ["A", "B"] ["0[->1]"] 0 = false := by decide
  have h2 : checkColonOrder ["A", "B"] ["0[->1]"] 1 = false := by decide
  have h3 : extract "0[->1]" = 0 := by decide
  have h4 : appendTraj ["0[->1]"] 1 = some [] := by decide
  have e0 : ((0 : ℚ) == 1) = false := by rw [beq_eq_false_iff_ne]; norm_num
  have e1 : ((1 : ℚ) == 1) = true := by rw [beq_iff_eq]
  have h6 : List.findIdx (fun q : ℚ => q == 1) [0, 1] = 1 := by
    simp [List.findIdx_cons, e0, e1]
  norm_num [sampleBody, walkStop, walkDist, walkMasked, walkProjected, stateToProbs,
    addQ, oneHot, maxQ, c6Cfg, c6Model, c6Draw, c6S3, h1, h2, h3, h4, h6, List.range_succ,
    List.replicate_succ]

theorem sampleLoop_cont (cfg : WalkCfg) (model : WalkModel) (draw : List ℚ → Nat)
    (start f : Nat) (s s2 : WalkState)
    (h : sampleBody cfg model draw start s = .cont s2) :
    sampleLoop cfg model draw start (f + 1) s = sampleLoop cfg model draw start f s2 := by
  rw [sampleLoop, h]

theorem sampleLoop_done (cfg : WalkCfg) (model : WalkModel) (draw : List ℚ → Nat)
    (start f : Nat) (s : WalkState) (tr : List String) (g : Bool)
    (h : sampleBody cfg model draw start s = .done tr g) :
    sampleLoop cfg model draw start (f + 1) s = .out tr g := by
  rw [sampleLoop, h]

theorem c6_run : sampleWalk c6Cfg c6Model c6Draw 0 10 = .out ["0[->1]"] true := by
  have ht : toString (0 : Nat) = "0" := by decide
  have h0 : (⟨oneHot c6Cfg.N 0, List.replicate c6Cfg.N 0, [toString 0], 0, 0⟩ : WalkState)
      = ⟨[1, 0], [0, 0], ["0"], 0, 0⟩ := by
    norm_num [oneHot, c6Cfg, List.replicate_succ, ht]
  unfold sampleWalk
  rw [h0]
  have e1 : sampleLoop c6Cfg c6Model c6Draw 0 10 ⟨[1, 0], [0, 0], ["0"], 0, 0⟩ =
      sampleLoop c6Cfg c6Model c6Draw 0 9 ⟨[0, 1], [0, 0], ["0", "1"], 1, 1⟩ :=
    sampleLoop_cont _ _ _ _ 9 _ _ c6_step1
  have e2 : sampleLoop c6Cfg c6Model c6Draw 0 9 ⟨[0, 1], [0, 0], ["0", "1"], 1, 1⟩ =
      sampleLoop c6Cfg c6Model c6Draw 0 8 c6S3 :=
    sampleLoop_cont _ _ _ _ 8 _ _ c6_step2
  have e3 : sampleLoop c6Cfg c6Model c6Draw 0 8 c6S3 = .out ["0[->1]"] true :=
    sampleLoop_done _ _ _ _ 7 _ _ _ c6_step3
  rw [e1, e2, e3]

theorem c6_stop3 : walkStop c6Cfg c6Model c6S3 = false := by
  have h1 : checkColonOrder ["A", "B"] ["0[->1]"] 0 = false := by decide
  have h2 : checkColonOrder ["A", "B"] ["0[->1]"] 1 = false := by decide
  have h3 : extract "0[->1]" = 0 := by decide
  norm_num [walkStop, walkDist, walkMasked, walkProjected, stateToProbs,
    addQ, maxQ, c6Cfg, c6Model, c6S3, h1, h2, h3, List.range_succ, List.replicate_succ]

theorem c6_dist3 : walkDist c6Cfg c6Model c6S3 = [0, 1] := by
  have h1 : checkColonOrder ["A", "B"] ["0[->1]"] 0 = false := by decide
  have h2 : checkColonOrder ["A", "B"] ["0[->1]"] 1 = false := by decide
  have h3 : extract "0[->1]" = 0 := by decide
  norm_num [walkDist, walkMasked, walkProjected, stateToProbs,
    addQ, c6Cfg, c6Model, c6S3, h1, h2, h3, List.range_succ, List.replicate_succ]

/-- C6, amended: one iteration of sample_walk terminates with good = True
exactly when (a) the surviving distribution is invalid or its maximum is at
or below min_thresh and loop_back is false, or (b) the walk is not stopping,
the drawn index does not repeat the head of the preceding token, loop_back is
true and the draw equals the start index, or (c) loop_back is false and
append_traj rejects the continuation of a non-self-loop, non-stopping draw.
Relative to the claim as stated, case (c) is the correction: with loop_back
false an append_traj rejection yields good = True, not good = False; with
loop_back true a rejection still yields good = False (no case applies). -/
theorem c6_good_characterization (cfg : WalkCfg) (model : WalkModel) (draw : List ℚ → Nat)
    (start : Nat) (s : WalkState) :
    (∃ tr, sampleBody cfg model draw start s = .done tr true) ↔
      ((walkStop cfg model s = true ∧ cfg.loopBack = false) ∨
       (walkStop cfg model s = false ∧
         extract (s.traj.getLastD "") ≠ draw (walkDist cfg model s) ∧
         cfg.loopBack = true ∧ draw (walkDist cfg model s) = start) ∨
       (walkStop cfg model s = false ∧
         extract (s.traj.getLastD "") ≠ draw (walkDist cfg model s) ∧
         ¬(cfg.loopBack = true ∧ draw (walkDist cfg model s) = start) ∧
         appendTraj s.traj (draw (walkDist cfg model s)) = some [] ∧
         cfg.loopBack = false)) := by
  unfold sampleBody
  by_cases hstop : walkStop cfg model s = true
  · rw [if_pos hstop]
    constructor
    · rintro ⟨tr, htr⟩
      injection htr with h1 h2
      exact Or.inl ⟨hstop, by simpa using h2⟩
    · rintro (⟨_, hl⟩ | ⟨hs2, _⟩ | ⟨hs2, _⟩)
      · exact ⟨s.traj, by rw [hl]; rfl⟩
      · rw [hstop] at hs2; exact absurd hs2 (by simp)
      · rw [hstop] at hs2; exact absurd hs2 (by simp)
  · have hstop2 : walkStop cfg model s = false := by simpa using hstop
    rw [if_neg hstop]
    by_cases hself : (extract (s.traj.getLastD "") == draw (walkDist cfg model s)) = true
    · rw [if_pos hself]
      rw [beq_iff_eq] at hself
      constructor
      · rintro ⟨tr, htr⟩
        injection htr with h1 h2
        exact absurd h2 (by simp)
      · rintro (⟨hs2, _⟩ | ⟨_, hne, _⟩ | ⟨_, hne, _⟩)
        · rw [hstop2] at hs2; exact absurd hs2 (by simp)
        · exact absurd hself hne
        · exact absurd hself hne
    · have hselfne : extract (s.traj.getLastD "") ≠ draw (walkDist cfg model s) := by
        simpa [beq_iff_eq] using hself
      rw [if_neg hself]
      by_cases hloop : (cfg.loopBack && (draw (walkDist cfg model s) == start)) = true
      · rw [if_pos hloop]
        simp only [Bool.and_eq_true, beq_iff_eq] at hloop
        constructor
        · intro _
          exact Or.inr (Or.inl ⟨hstop2, hselfne, hloop.1, hloop.2⟩)
        · intro _
          exact ⟨s.traj ++ [toString (draw (walkDist cfg model s))], rfl⟩
      · rw [if_neg hloop]
        have hnl : ¬(cfg.loopBack = true ∧ draw (walkDist cfg model s) = start) := by
          simpa [Bool.and_eq_true, beq_iff_eq] using hloop
        cases happ : appendTraj s.traj (draw (walkDist cfg model s)) with
        | none =>
          constructor
          · rintro ⟨tr, htr⟩
            exact absurd htr (by simp)
          · rintro (⟨hs2, _⟩ | ⟨_, _, hl2⟩ | ⟨_, _, _, ha2, _⟩)
            · rw [hstop2] at hs2; exact absurd hs2 (by simp)
            · exact absurd ⟨hl2.1, hl2.2⟩ hnl
            · exact absurd ha2 (by simp)
        | some l =>
          cases l with
          | nil =>
            constructor
            · rintro ⟨tr, htr⟩
              injection htr with h1 h2
              exact Or.inr (Or.inr ⟨hstop2, hselfne, hnl, rfl, by simpa using h2⟩)
            · rintro (⟨hs2, _⟩ | ⟨_, _, hl2⟩ | ⟨_, _, _, _, hlb⟩)
              · rw [hstop2] at hs2; exact absurd hs2 (by simp)
              · exact absurd ⟨hl2.1, hl2.2⟩ hnl
              · exact ⟨s.traj, by rw [hlb]; rfl⟩
          | cons x xs =>
            constructor
            · rintro ⟨tr, htr⟩
              exact absurd htr (by simp)
            · rintro (⟨hs2, _⟩ | ⟨_, _, hl2⟩ | ⟨_, _, _, ha2, _⟩)
              · rw [hstop2] at hs2; exact absurd hs2 (by simp)
              · exact absurd ⟨hl2.1, hl2.2⟩ hnl
              · exact absurd ha2 (by simp)

/-- C6, counterexample to the claim as stated: a complete sample_walk run
(two fully connected labels, reversing update model, loop_back = False,
min_thresh = 0) returns good = True although its final iteration neither hit
the threshold (walkStop is false: the surviving distribution is [0, 1] with
maximum 1 above min_thresh 0) nor closed a loop: the walk terminated because
append_traj rejected the drawn index 1, which the claim says must yield
good = False. -/
theorem c6_counterexample :
    sampleWalk c6Cfg c6Model c6Draw 0 10 = .out ["0[->1]"] true ∧
    c6Cfg.loopBack = false ∧
    sampleBody c6Cfg c6Model c6Draw 0 c6S3 = .done ["0[->1]"] true ∧
    walkStop c6Cfg c6Model c6S3 = false ∧
    c6Draw (walkDist c6Cfg c6Model c6S3) = 1 ∧
    appendTraj c6S3.traj 1 = some [] := by
  refine ⟨c6_run, rfl, c6_step3, c6_stop3, ?_, by decide⟩
  rw [c6_dist3]
  decide

/-! Helper lemmas for the canonicalizer (claim C8). -/

theorem sideChain_mk (i : Nat) (v : String) (s : Bool) (cs : List Node) :
    (Node.mk i v s cs).sideChain = s := rfl

theorem children_mk (i : Nat) (v : String) (s : Bool) (cs : List Node) :
    (Node.mk i v s cs).children = cs := rfl

theorem allNodes_expand (n : Node) : allNodes n = n :: allNodesL n.children := by
  cases n with
  | mk i v s cs => rfl

theorem visited_expand (n : Node) : visited n = n :: visitedL n.children := by
  cases n with
  | mk i v s cs => rfl

theorem sizeOf_child_lt (n c : Node) (hc : c ∈ n.children) : sizeOf c < sizeOf n := by
  cases n with
  | mk i v s cs =>
    have := List.sizeOf_lt_of_mem (by simpa [Node.children] using hc)
    simp only [Node.mk.sizeOf_spec]
    omega

theorem allNodes_of_leaf (n : Node) (h : n.children = []) : allNodes n = [n] := by
  cases n with
  | mk i v s cs =>
    simp only [Node.children] at h
    subst h
    rfl

theorem mem_allNodesL (cs : List Node) (m : Node) :
    m ∈ allNodesL cs ↔ ∃ c ∈ cs, m ∈ allNodes c := by
  induction cs with
  | nil => simp [allNodesL]
  | cons c rest ih =>
    rw [allNodesL]
    simp only [List.mem_append, ih, List.mem_cons]
    constructor
    · rintro (h | ⟨c2, hc2, hm⟩)
      · exact ⟨c, Or.inl rfl, h⟩
      · exact ⟨c2, Or.inr hc2, hm⟩
    · rintro ⟨c2, hc2 | hc2, hm⟩
      · exact Or.inl (hc2 ▸ hm)
      · exact Or.inr ⟨c2, hc2, hm⟩

theorem mem_allNodes_self (n : Node) : n ∈ allNodes n := by
  cases n with
  | mk i v s cs => rw [allNodes]; exact List.mem_cons_self _ _

theorem mem_allNodes_child (n c x : Node) (hc : c ∈ n.children) (hx : x ∈ allNodes c) :
    x ∈ allNodes n := by
  cases n with
  | mk i v s cs =>
    rw [allNodes]
    exact List.mem_cons_of_mem _ ((mem_allNodesL cs x).2 ⟨c, hc, hx⟩)

theorem nodeCountL_ge (cs : List Node) (c : Node) (hc : c ∈ cs) :
    nodeCount c ≤ nodeCountL cs := by
  induction cs with
  | nil => cases hc
  | cons a rest ih =>
    rw [nodeCountL]
    rcases List.mem_cons.1 hc with h | h
    · rw [h]; omega
    · have := ih h; omega

theorem nodeCount_child_lt (n c : Node) (hc : c ∈ n.children) :
    nodeCount c < nodeCount n := by
  cases n with
  | mk i v s cs =>
    rw [nodeCount]
    have := nodeCountL_ge cs c hc
    omega

theorem sortedInsert_perm (a : Node) (l : List Node) : (sortedInsert a l).Perm (a :: l) := by
  induction l with
  | nil => rfl
  | cons b bs ih =>
    rw [sortedInsert]
    by_cases h : keyLt b a = true
    · rw [if_pos h]
      exact (List.Perm.cons b ih).trans (List.Perm.swap a b bs)
    · rw [if_neg h]

theorem sortChilds_perm (l : List Node) : (sortChilds l).Perm l := by
  induction l with
  | nil => rfl
  | cons a rest ih =>
    rw [sortChilds, List.foldr_cons]
    exact (sortedInsert_perm a _).trans (List.Perm.cons a ih)

theorem mem_sortChilds (l : List Node) (x : Node) : x ∈ sortChilds l ↔ x ∈ l :=
  (sortChilds_perm l).mem_iff

theorem fuelC_eq_sum (l : List Node) :
    fuelC l = 1 + (l.map (fun c => 1 + fuelW c)).sum := by
  induction l with
  | nil => rfl
  | cons c rest ih => rw [fuelC, ih]; simp; omega

theorem fuelC_sortChilds (l : List Node) : fuelC (sortChilds l) = fuelC l := by
  rw [fuelC_eq_sum, fuelC_eq_sum]
  have := (sortChilds_perm l).map (fun c => 1 + fuelW c)
  rw [this.sum_eq]

theorem fuelW_pos (n : Node) : 1 ≤ fuelW n := by
  cases n with
  | mk i v s cs => rw [fuelW]; omega

theorem fuelC_pos (l : List Node) : 1 ≤ fuelC l := by
  cases l with
  | nil => rw [fuelC]
  | cons c cs => rw [fuelC]; omega

theorem fuelC_cons_bounds (c : Node) (cs : List Node) :
    fuelW c + 1 ≤ fuelC (c :: cs) ∧ fuelC cs + 1 ≤ fuelC (c :: cs) := by
  rw [fuelC]
  have := fuelW_pos c
  have := fuelC_pos cs
  omega

theorem orderedChilds_plain (n : Node) :
    orderedChilds [] false n = some (sortChilds n.children) := by
  rw [orderedChilds]
  simp

/-- With fuel at least the fuelW/fuelC bound, the plain (no perm_map)
depth-first walk never runs out of fuel. -/
theorem dfsRun_plain_isSome :
    ∀ (f : Nat) (res : List Node) (k : Node ⊕ List Node),
      (match k with
       | .inl n => fuelW n ≤ f
       | .inr l => fuelC l ≤ f) →
      (dfsRun [] false f res k).isSome := by
  intro f
  induction f with
  | zero =>
    intro res k hk
    cases k with
    | inl n => exact absurd (le_trans (fuelW_pos n) hk) (by omega)
    | inr l => exact absurd (le_trans (fuelC_pos l) hk) (by omega)
  | succ g ih =>
    intro res k hk
    cases k with
    | inl n =>
      rw [dfsRun, orderedChilds_plain]
      apply ih
      replace hk : fuelW n ≤ g + 1 := hk
      cases n with
      | mk i v s cs =>
        rw [fuelW] at hk
        simp only [Node.children]
        rw [fuelC_sortChilds]
        omega
    | inr l =>
      cases l with
      | nil => rw [dfsRun]; rfl
      | cons c cs =>
        rw [dfsRun]
        have hb := fuelC_cons_bounds c cs
        by_cases hid : c.id ≠ 0
        · rw [if_pos hid]
          have h1 := ih res (.inl c) (by omega)
          cases h2 : dfsRun [] false g res (.inl c) with
          | none => rw [h2] at h1; exact absurd h1 (by simp)
          | some r2 => exact ih _ (.inr cs) (by omega)
        · rw [if_neg hid]
          exact ih res (.inr cs) (by omega)

theorem mem_visitedL (cs : List Node) (x : Node) :
    x ∈ visitedL cs ↔ ∃ c ∈ cs, c.id ≠ 0 ∧ x ∈ visited c := by
  induction cs with
  | nil => simp [visitedL]
  | cons c rest ih =>
    rw [visitedL]
    simp only [List.mem_append, ih]
    by_cases hid : c.id = 0
    · rw [if_pos hid]
      simp only [List.not_mem_nil, false_or, List.mem_cons]
      constructor
      · rintro ⟨c2, hc2, hx⟩
        exact ⟨c2, Or.inr hc2, hx⟩
      · rintro ⟨c2, hc2 | hc2, hx⟩
        · exact absurd (hc2 ▸ hid) hx.1
        · exact ⟨c2, hc2, hx⟩
    · rw [if_neg hid]
      constructor
      · rintro (hx | ⟨c2, hc2, hx⟩)
        · exact ⟨c, List.mem_cons_self _ _, hid, hx⟩
        · exact ⟨c2, List.mem_cons_of_mem _ hc2, hx⟩
      · rintro ⟨c2, hc2, hx⟩
        rcases List.mem_cons.1 hc2 with h | h
        · exact Or.inl (h ▸ hx).2
        · exact Or.inr ⟨c2, h, hx⟩

/-- Every node the conceptual visit set contains ends up in the plain
depth-first walk's output, and the accumulator only grows. -/
theorem dfsRun_plain_visits :
    ∀ (f : Nat) (res : List Node) (k : Node ⊕ List Node) (L : List Node),
      dfsRun [] false f res k = some L →
      (∀ x ∈ res, x ∈ L) ∧
      (match k with
       | .inl n => ∀ x ∈ visited n, x ∈ L
       | .inr l => ∀ c ∈ l, c.id ≠ 0 → ∀ x ∈ visited c, x ∈ L) := by
  intro f
  induction f with
  | zero => intro res k L h; rw [dfsRun] at h; cases h
  | succ g ih =>
    intro res k L h
    cases k with
    | inl n =>
      rw [dfsRun, orderedChilds_plain] at h
      obtain ⟨hres, hrest⟩ := ih _ _ _ h
      refine ⟨fun x hx => hres x (List.mem_append_left _ hx), ?_⟩
      cases n with
      | mk i v s cs =>
        intro x hx
        rw [visited] at hx
        rcases List.mem_cons.1 hx with hx | hx
        · exact hres _ (by rw [hx]; exact List.mem_append_right _ (List.mem_singleton_self _))
        · obtain ⟨c, hc, hcid, hxc⟩ := (mem_visitedL cs x).1 hx
          exact hrest c ((mem_sortChilds _ _).2 (by simpa [Node.children] using hc)) hcid x hxc
    | inr l =>
      cases l with
      | nil =>
        rw [dfsRun] at h
        cases h
        exact ⟨fun x hx => hx, by intro c hc; cases hc⟩
      | cons c cs =>
        rw [dfsRun] at h
        by_cases hid : c.id ≠ 0
        · rw [if_pos hid] at h
          cases h2 : dfsRun [] false g res (.inl c) with
          | none => rw [h2] at h; cases h
          | some r2 =>
            rw [h2] at h
            obtain ⟨hres2, hvc⟩ := ih _ _ _ h2
            obtain ⟨hres3, hrest⟩ := ih _ _ _ h
            have hr2L : ∀ x ∈ r2, x ∈ L := by
              intro x hx
              apply hres3
              by_cases hsc : c.sideChain = true
              · rw [if_pos hsc]; exact List.mem_append_left _ hx
              · rw [if_neg hsc]; exact hx
            refine ⟨fun x hx => hr2L x (hres2 x hx), ?_⟩
            intro c2 hc2 hc2id x hx
            rcases List.mem_cons.1 hc2 with he | he
            · exact hr2L x (hvc x (he ▸ hx))
            · exact hrest c2 he hc2id x hx
        · rw [if_neg hid] at h
          obtain ⟨hres2, hrest⟩ := ih _ _ _ h
          refine ⟨hres2, ?_⟩
          intro c2 hc2 hc2id x hx
          rcases List.mem_cons.1 hc2 with he | he
          · exact absurd (he ▸ hc2id) hid
          · exact hrest c2 he hc2id x hx

theorem imposeChildren_filter_high :
    ∀ (cs : List Node) (j li : Nat), li < j →
      ((imposeChildren cs j li).filter (fun c => !c.sideChain)).length = 0 := by
  intro cs
  induction cs with
  | nil => intro j li _; rfl
  | cons c rest ih =>
    intro j li hlt
    rw [imposeChildren]
    have hne : (j != li) = true := by simpa using by omega
    rw [List.filter_cons]
    simp only [sideChain_mk, hne, Bool.not_true, Bool.false_eq_true, if_false]
    exact ih (j + 1) li (by omega)

theorem imposeChildren_filter_le :
    ∀ (cs : List Node) (j li : Nat),
      ((imposeChildren cs j li).filter (fun c => !c.sideChain)).length ≤ 1 := by
  intro cs
  induction cs with
  | nil => intro j li; simp [imposeChildren]
  | cons c rest ih =>
    intro j li
    rw [imposeChildren, List.filter_cons]
    by_cases he : j = li
    · have : (j != li) = false := by simpa using he
      simp only [sideChain_mk, this, Bool.not_false, if_true, List.length_cons]
      rw [imposeChildren_filter_high rest (j + 1) li (by omega)]
    · have : (j != li) = true := by simpa using he
      simp only [sideChain_mk, this, Bool.not_true, Bool.false_eq_true, if_false]
      exact ih (j + 1) li

theorem mem_imposeChildren :
    ∀ (cs : List Node) (j li : Nat) (x : Node), x ∈ imposeChildren cs j li →
      ∃ c ∈ cs, ∃ j2,
        x = Node.mk c.id c.val (j2 != li) (imposeOrder c (j2 == li)).children := by
  intro cs
  induction cs with
  | nil => intro j li x hx; cases hx
  | cons c rest ih =>
    intro j li x hx
    rw [imposeChildren] at hx
    rcases List.mem_cons.1 hx with hx | hx
    · exact ⟨c, List.mem_cons_self _ _, j, hx⟩
    · obtain ⟨c2, hc2, j2, he⟩ := ih (j + 1) li x hx
      exact ⟨c2, List.mem_cons_of_mem _ hc2, j2, he⟩

/-- Every node of a tree processed by impose_order ends with at most one
non-side-chain child. -/
theorem imposeOrder_counts (n : Node) (b : Bool) :
    ∀ m ∈ allNodes (imposeOrder n b), mainChildCount m ≤ 1 := by
  cases n with
  | mk i v s cs =>
    intro m hm
    rw [imposeOrder, allNodes] at hm
    rcases List.mem_cons.1 hm with hm | hm
    · rw [hm]
      simp only [mainChildCount, Node.children]
      exact imposeChildren_filter_le cs 0 _
    · obtain ⟨x, hx, hmx⟩ := (mem_allNodesL _ _).1 hm
      obtain ⟨c, hc, j2, hxe⟩ := mem_imposeChildren _ _ _ _ hx
      subst hxe
      rw [allNodes] at hmx
      rcases List.mem_cons.1 hmx with hmx | hmx
      · rw [hmx]
        have hrec := imposeOrder_counts c (j2 ==
          (if b && !cs.isEmpty then minIdIdx cs else cs.length))
          (imposeOrder c (j2 == (if b && !cs.isEmpty then minIdIdx cs else cs.length)))
          (mem_allNodes_self _)
        cases hio : imposeOrder c (j2 == (if b && !cs.isEmpty then minIdIdx cs else cs.length)) with
        | mk a bv sfl K =>
          rw [hio] at hrec
          simpa [mainChildCount, Node.children, hio] using hrec
      · have hmem : m ∈ allNodes
            (imposeOrder c (j2 == (if b && !cs.isEmpty then minIdIdx cs else cs.length))) := by
          cases hio : imposeOrder c
              (j2 == (if b && !cs.isEmpty then minIdIdx cs else cs.length)) with
          | mk a bv sfl K =>
            rw [allNodes]
            rw [hio] at hmx
            exact List.mem_cons_of_mem _ (by simpa [Node.children] using hmx)
        exact imposeOrder_counts c _ m hmem
termination_by sizeOf n
decreasing_by
  all_goals simp_wf
  all_goals
    have := List.sizeOf_lt_of_mem hc
    omega

theorem mem_allNodes_of_child_of_mem (t' n c : Node) (hn : n ∈ allNodes t')
    (hc : c ∈ n.children) : c ∈ allNodes t' := by
  rw [allNodes_expand] at hn ⊢
  rcases List.mem_cons.1 hn with hn | hn
  · subst hn
    exact List.mem_cons_of_mem _ ((mem_allNodesL _ _).2 ⟨c, hc, mem_allNodes_self c⟩)
  · obtain ⟨c2, hc2, hn2⟩ := (mem_allNodesL _ _).1 hn
    exact List.mem_cons_of_mem _
      ((mem_allNodesL _ _).2 ⟨c2, hc2, mem_allNodes_of_child_of_mem c2 n c hn2 hc⟩)
termination_by sizeOf t'
decreasing_by
  simp_wf
  exact sizeOf_child_lt _ _ hc2

theorem visited_or_leaf (t : Node)
    (hs : ∀ c ∈ t.children, ∀ n ∈ allNodes c, n.id = 0 → n.children = []) :
    ∀ m ∈ allNodes t, m ∈ visited t ∨ m.children = [] := by
  intro m hm
  rw [allNodes_expand] at hm
  rcases List.mem_cons.1 hm with hm | hm
  · left
    rw [hm, visited_expand]
    exact List.mem_cons_self _ _
  · obtain ⟨c, hc, hmc⟩ := (mem_allNodesL _ _).1 hm
    by_cases hid : c.id = 0
    · right
      have hcc : c.children = [] := hs c hc c (mem_allNodes_self c) hid
      rw [allNodes_of_leaf c hcc] at hmc
      rcases List.mem_cons.1 hmc with hmc | hmc
      · rw [hmc]
        exact hcc
      · cases hmc
    · have hrec := visited_or_leaf c
        (by
          intro c2 hc2c n hn hid2
          exact hs c hc n (mem_allNodes_child c c2 n hc2c hn) hid2)
        m hmc
      rcases hrec with hv | hleaf
      · left
        rw [visited_expand]
        exact List.mem_cons_of_mem _ ((mem_visitedL t.children m).2 ⟨c, hc, hid, hv⟩)
      · right
        exact hleaf
termination_by sizeOf t
decreasing_by
  simp_wf
  exact sizeOf_child_lt _ _ hc

/-- After the conditional impose of compute_main_chain, no dfs-visited node
keeps more than one non-side-chain child. -/
theorem canonicalize_counts (t : Node)
    (hs : ∀ c ∈ t.children, ∀ n ∈ allNodes c, n.id = 0 → n.children = []) :
    ∀ m ∈ allNodes (canonicalize t), mainChildCount m ≤ 1 := by
  rw [canonicalize]
  by_cases hni : needImpose t = true
  · rw [if_pos hni]
    exact imposeOrder_counts t true
  · rw [if_neg hni]
    have hni2 : needImpose t = false := by simpa using hni
    have hsome := dfsRun_plain_isSome (fuelW t) [] (.inl t) (le_refl _)
    cases hdfs : dfsRun [] false (fuelW t) [] (.inl t) with
    | none => rw [hdfs] at hsome; exact absurd hsome (by simp)
    | some L =>
      have hvis := dfsRun_plain_visits (fuelW t) [] (.inl t) L hdfs
      have hvisT : ∀ x ∈ visited t, x ∈ L := hvis.2
      have hall : ∀ m ∈ L, ¬(1 < mainChildCount m) := by
        intro m hm hgt
        have hdfsW : dfsWalk [] false (fuelW t) t = some L := hdfs
        rw [needImpose, hdfsW] at hni2
        simp only [Option.getD_some] at hni2
        have : L.any (fun n => decide (1 < mainChildCount n)) = true :=
          List.any_eq_true.2 ⟨m, hm, by simpa using hgt⟩
        rw [hni2] at this
        cases this
      intro m hm
      rcases visited_or_leaf t hs m hm with hv | hleaf
      · have := hall m (hvisT m hv)
        omega
      · simp [mainChildCount, hleaf]

/-- Under the at-most-one-main-child invariant, the chain walk with fuel
above the node count never fails its assertion or runs out. -/
theorem chainFrom_isSome (root t' : Node)
    (hcnt : ∀ m ∈ allNodes t', mainChildCount m ≤ 1) :
    ∀ (f : Nat) (n : Node), n ∈ allNodes t' → nodeCount n < f →
      (chainFrom root f n).isSome := by
  intro f
  induction f with
  | zero => intro n _ h; omega
  | succ g ih =>
    intro n hn hcount
    rw [chainFrom]
    have h1 : ¬(1 < mainChildCount n) := by
      have := hcnt n hn
      omega
    rw [if_neg h1]
    cases hfm : firstMainChild n with
    | none => simp
    | some c =>
      by_cases hc0 : c.id = 0
      · simp [hc0]
      · have hcmem : c ∈ n.children := List.mem_of_find?_eq_some hfm
        have hrec := ih c (mem_allNodes_of_child_of_mem t' n c hn hcmem)
          (by have := nodeCount_child_lt n c hcmem; omega)
        cases hcf : chainFrom root g c with
        | none => rw [hcf] at hrec; exact absurd hrec (by simp)
        | some ch => simp [hc0, hcf]

/-- C8: after compute_main_chain has (when needed) imposed order, every node
of the (dfs-reachable) tree has at most one non-side-chain child — for the
whole tree under the data-model convention that id-0 sentinel descendants are
childless — and consequently the chain walk's num_main_childs assertion can
never fail: the walk returns a chain. -/
theorem c8_impose_main_child_unique (t : Node)
    (hs : ∀ c ∈ t.children, ∀ n ∈ allNodes c, n.id = 0 → n.children = []) :
    (∀ m ∈ allNodes (canonicalize t), mainChildCount m ≤ 1) ∧
    (computeMainChain (canonicalize t)).isSome := by
  refine ⟨canonicalize_counts t hs, ?_⟩
  rw [computeMainChain]
  exact chainFrom_isSome (canonicalize t) (canonicalize t) (canonicalize_counts t hs)
    (nodeCount (canonicalize t) + 1) (canonicalize t) (mem_allNodes_self _) (by omega)

/-- Witness for C8 at a concrete tree whose root has two non-side-chain
children (so impose_order must run): after canonicalization the root keeps at
most one main-chain child and the chain walk succeeds. -/
theorem c8_impose_main_child_unique_witness :
    mainChildCount (canonicalize (Node.mk 0 "R" false
      [Node.mk 1 "A" false [], Node.mk 2 "B" false []])) ≤ 1 ∧
    (computeMainChain (canonicalize (Node.mk 0 "R" false
      [Node.mk 1 "A" false [], Node.mk 2 "B" false []]))).isSome :=
  ⟨(c8_impose_main_child_unique (Node.mk 0 "R" false
      [Node.mk 1 "A" false [], Node.mk 2 "B" false []]) (by decide)).1 _
      (mem_allNodes_self _),
   (c8_impose_main_child_unique (Node.mk 0 "R" false
      [Node.mk 1 "A" false [], Node.mk 2 "B" false []]) (by decide)).2⟩

/-! Helper lemmas for the C1 analysis: generic list facts. -/

theorem getLastD_mem {A : Type _} (l : List A) (d : A) (h : l ≠ []) : l.getLastD d ∈ l := by
  induction l with
  | nil => exact absurd rfl h
  | cons a t ih =>
      rw [List.getLastD_cons]
      cases t with
      | nil => simp
      | cons b t2 => exact List.mem_cons_of_mem _ (ih (by simp))

theorem getLastD_append {A : Type _} (l1 l2 : List A) (d : A) :
    (l1 ++ l2).getLastD d = l2.getLastD (l1.getLastD d) := by
  induction l1 generalizing d with
  | nil => rfl
  | cons a t ih => rw [List.cons_append, List.getLastD_cons, List.getLastD_cons, ih]

theorem drop_pred {A : Type _} (l : List A) (d : A) (h : l ≠ []) :
    l.drop (l.length - 1) = [l.getLastD d] := by
  induction l with
  | nil => exact absurd rfl h
  | cons a t ih =>
      cases t with
      | nil => rfl
      | cons b t2 =>
          rw [List.getLastD_cons]
          have hlen : (a :: b :: t2).length - 1 = (b :: t2).length := by simp
          rw [hlen]
          calc (a :: b :: t2).drop (b :: t2).length
              = (b :: t2).drop ((b :: t2).length - 1) := by
                rw [show (a :: b :: t2).drop (b :: t2).length
                    = (b :: t2).drop ((b :: t2).length - 1) from ?_]
                cases t2 <;> simp [List.drop]
            _ = [(b :: t2).getLastD d] := ih (by simp)

theorem dropLast_ne_nil_cons {A : Type _} (a : A) (l : List A) (h : l ≠ []) :
    (a :: l).dropLast = a :: l.dropLast :=
  List.dropLast_cons_of_ne_nil h

/-! Helper lemmas for the C1 analysis: the indices loop of augment_walk_order
over a segment decomposition. -/

theorem flattenSegs_nil : flattenSegs [] = [] := rfl

theorem flattenSegs_cons (s : Node × List Node) (rest : List (Node × List Node)) :
    flattenSegs (s :: rest) = s.1 :: (s.2 ++ flattenSegs rest) := by
  simp [flattenSegs]

theorem flattenSegs_append (s1 s2 : List (Node × List Node)) :
    flattenSegs (s1 ++ s2) = flattenSegs s1 ++ flattenSegs s2 := by
  simp [flattenSegs]

theorem computeIndices_skip (e : List Node) (target : Node) (hne : target ∉ e) :
    ∀ (rest ms : List Node) (j : Nat),
      computeIndices (e ++ rest) (target :: ms) j =
        computeIndices rest (target :: ms) (j + e.length) := by
  induction e with
  | nil => intro rest ms j; simp
  | cons a e2 ih =>
      intro rest ms j
      have hat : a ≠ target := fun h => hne (h ▸ List.mem_cons_self a e2)
      rw [List.cons_append]
      rw [show computeIndices (a :: (e2 ++ rest)) (target :: ms) j
          = computeIndices (e2 ++ rest) (target :: ms) (j + 1) from by
        rw [computeIndices]; rw [if_neg hat]]
      rw [ih (fun h => hne (List.mem_cons_of_mem a h)) rest ms (j + 1)]
      congr 1
      simp [List.length_cons]
      omega

theorem computeIndices_segments (segs : List (Node × List Node)) (closing : Node) :
    ∀ (j : Nat), segsOk segs closing →
      computeIndices (flattenSegs segs) (segs.map Prod.fst ++ [closing]) j =
        some (cumStarts segs j) := by
  induction segs with
  | nil => intro j _; rfl
  | cons s rest ih =>
      intro j hok
      rw [flattenSegs_cons, List.map_cons, List.cons_append]
      rw [show computeIndices (s.1 :: (s.2 ++ flattenSegs rest))
            (s.1 :: (rest.map Prod.fst ++ [closing])) j
          = (computeIndices (s.2 ++ flattenSegs rest)
              (rest.map Prod.fst ++ [closing]) (j + 1)).map (j :: ·) from by
        rw [computeIndices]; rw [if_pos rfl]]
      cases rest with
      | nil =>
          have hnotin : closing ∉ s.2 := hok
          rw [List.map_nil, List.nil_append, flattenSegs_nil,
            computeIndices_skip s.2 closing hnotin [] [] (j + 1)]
          rfl
      | cons s2 rest2 =>
          have hnotin : s2.1 ∉ s.2 := hok.1
          rw [List.map_cons, List.cons_append,
            computeIndices_skip s.2 s2.1 hnotin (flattenSegs (s2 :: rest2))
              (rest2.map Prod.fst ++ [closing]) (j + 1)]
          rw [show (s2.1 :: (rest2.map Prod.fst ++ [closing]))
              = (s2 :: rest2).map Prod.fst ++ [closing] from by simp]
          rw [ih (j + 1 + s.2.length) hok.2]
          rfl

/-! Helper lemmas for the C1 analysis: the slicing loop of
augment_walk_order over a segment decomposition. -/

theorem cumStarts_length (segs : List (Node × List Node)) :
    ∀ j, (cumStarts segs j).length = segs.length := by
  induction segs with
  | nil => intro j; rfl
  | cons s rest ih => intro j; rw [cumStarts]; simp [ih]

theorem cumStarts_getD (segs : List (Node × List Node)) :
    ∀ (i j : Nat), i < segs.length →
      (cumStarts segs j).getD i 0 = j + (flattenSegs (segs.take i)).length := by
  induction segs with
  | nil => intro i j h; exact absurd h (by simp)
  | cons s rest ih =>
      intro i j h
      cases i with
      | zero => simp [cumStarts, flattenSegs]
      | succ i2 =>
          rw [cumStarts]
          rw [show (j :: cumStarts rest (j + 1 + s.2.length)).getD (i2 + 1) 0
              = (cumStarts rest (j + 1 + s.2.length)).getD i2 0 from rfl]
          rw [ih i2 (j + 1 + s.2.length) (by simpa using h)]
          rw [List.take_succ_cons, flattenSegs_cons]
          simp
          omega

theorem augmentSlices_zero_true (res : List Node) (idxs : List Nat) :
    augmentSlices res idxs 0 true =
      (List.range idxs.length).flatMap (fun step =>
        let is := idxs.getD ((0 + step) % idxs.length) 0
        let ie := idxs.getD ((0 + step + 1) % idxs.length) 0
        if ie ≤ is then res.drop is ++ res.take ie
        else (res.drop is).take (ie - is)) := rfl

theorem augmentSlices_flatten (segs : List (Node × List Node)) (hne : segs ≠ []) :
    augmentSlices (flattenSegs segs) (cumStarts segs 0) 0 true = flattenSegs segs := by
  have hL : (cumStarts segs 0).length = segs.length := cumStarts_length segs 0
  have hpos : 0 < segs.length := List.length_pos.mpr hne
  rw [augmentSlices_zero_true]
  simp only [hL]
  rw [List.flatMap_def]
  have hmap : (List.range segs.length).map (fun step =>
      let is := (cumStarts segs 0).getD ((0 + step) % segs.length) 0
      let ie := (cumStarts segs 0).getD ((0 + step + 1) % segs.length) 0
      if ie ≤ is then (flattenSegs segs).drop is ++ (flattenSegs segs).take ie
      else ((flattenSegs segs).drop is).take (ie - is))
      = segs.map (fun p => p.1 :: p.2) := by
    apply List.ext_getElem (by simp)
    intro i h1 h2
    rw [List.getElem_map, List.getElem_range, List.getElem_map]
    have hi : i < segs.length := by simpa using h2
    have hsplit : flattenSegs segs
        = flattenSegs (segs.take i) ++ flattenSegs (segs.drop i) := by
      rw [← flattenSegs_append, List.take_append_drop]
    have hdropi : segs.drop i = segs[i] :: segs.drop (i + 1) :=
      List.drop_eq_getElem_cons hi
    have hs : (0 + i) % segs.length = i := by
      rw [Nat.zero_add]; exact Nat.mod_eq_of_lt hi
    have his : (cumStarts segs 0).getD i 0 = (flattenSegs (segs.take i)).length := by
      rw [cumStarts_getD segs i 0 hi]; omega
    by_cases hlast : i + 1 < segs.length
    · have he : (0 + i + 1) % segs.length = i + 1 := by
        rw [Nat.zero_add]; exact Nat.mod_eq_of_lt hlast
      have htk : segs.take (i + 1) = segs.take i ++ [segs[i]] := by
        rw [List.take_succ]
        congr 1
        rw [List.getElem?_eq_getElem hi]
        rfl
      have hie : (cumStarts segs 0).getD (i + 1) 0
          = (flattenSegs (segs.take i)).length + (1 + segs[i].2.length) := by
        rw [cumStarts_getD segs (i + 1) 0 hlast, htk, flattenSegs_append,
          flattenSegs_cons, flattenSegs_nil]
        simp only [List.append_nil, List.length_append, List.length_cons]
        omega
      simp only [hs, he, his, hie]
      rw [if_neg (by omega)]
      rw [hsplit, List.drop_left]
      rw [hdropi, flattenSegs_cons]
      have hsub : (flattenSegs (segs.take i)).length + (1 + segs[i].2.length)
          - (flattenSegs (segs.take i)).length
          = (segs[i].1 :: segs[i].2).length := by
        simp only [List.length_cons]
        omega
      rw [hsub]
      have htl := List.take_left (segs[i].1 :: segs[i].2)
        (flattenSegs (segs.drop (i + 1)))
      rw [List.cons_append] at htl
      rw [htl]
    · have hieq : i + 1 = segs.length := by omega
      have he : (0 + i + 1) % segs.length = 0 := by
        rw [Nat.zero_add, hieq, Nat.mod_self]
      have hie : (cumStarts segs 0).getD 0 0 = 0 := by
        rw [cumStarts_getD segs 0 0 hpos]; simp [flattenSegs]
      simp only [hs, he, his, hie]
      rw [if_pos (by omega)]
      rw [List.take_zero, List.append_nil]
      rw [hsplit, List.drop_left, hdropi]
      have hdropall : segs.drop (i + 1) = [] := List.drop_eq_nil_of_le (by omega)
      rw [hdropall, flattenSegs_cons, flattenSegs_nil, List.append_nil]
  rw [hmap, ← List.flatMap_def]
  rfl

/-! Helper lemmas for the C1 analysis: dfsRun equals its compositional form
dfsB, so the walk output can be decomposed without tracking the accumulator. -/

theorem dfsB_inl_shape (pm : List (Nat × List Node)) (u : Bool) (f : Nat) (n : Node)
    (D : List Node) (h : dfsB pm u f (.inl n) = some D) : ∃ B, D = n :: B := by
  cases f with
  | zero => exact absurd h (by simp [dfsB])
  | succ f2 =>
      cases horc : orderedChilds pm u n with
      | none => rw [dfsB, horc] at h; exact absurd h (by simp)
      | some cs =>
          simp only [dfsB, horc] at h
          cases hb : dfsB pm u f2 (.inr (cs, n)) with
          | none => rw [hb] at h; exact absurd h (by simp)
          | some B => rw [hb] at h; simp at h; exact ⟨B, h.symm⟩

theorem dfsRun_eq_dfsB (pm : List (Nat × List Node)) (u : Bool) :
    ∀ f : Nat,
      (∀ (n : Node) (res : List Node),
        dfsRun pm u f res (.inl n) = (dfsB pm u f (.inl n)).map (res ++ ·)) ∧
      (∀ (cs res : List Node), res ≠ [] →
        dfsRun pm u f res (.inr cs)
          = (dfsB pm u f (.inr (cs, res.getLastD default))).map (res ++ ·)) := by
  intro f
  induction f with
  | zero => exact ⟨fun n res => rfl, fun cs res h => rfl⟩
  | succ f ih =>
      constructor
      · intro n res
        cases horc : orderedChilds pm u n with
        | none => rw [dfsRun, dfsB, horc]; rfl
        | some cs =>
            rw [dfsRun, dfsB, horc]
            show dfsRun pm u f (res ++ [n]) (.inr cs)
              = ((dfsB pm u f (.inr (cs, n))).map (n :: ·)).map (res ++ ·)
            rw [ih.2 cs (res ++ [n]) (by simp), List.getLastD_concat]
            cases dfsB pm u f (.inr (cs, n)) with
            | none => rfl
            | some B => simp
      · intro cs res hres
        cases cs with
        | nil => rw [dfsRun, dfsB]; simp
        | cons c cs2 =>
            by_cases hc0 : c.id = 0
            · rw [dfsRun, dfsB, if_neg (by simpa using hc0), if_neg (by simpa using hc0)]
              exact ih.2 cs2 res hres
            · rw [dfsRun, dfsB, if_pos hc0, if_pos hc0]
              rw [ih.1 c res]
              cases hbc : dfsB pm u f (.inl c) with
              | none => rfl
              | some bc =>
                  obtain ⟨bc2, rfl⟩ := dfsB_inl_shape pm u f c bc hbc
                  rw [Option.map_some']
                  show dfsRun pm u f
                      (if c.sideChain then (res ++ (c :: bc2))
                          ++ (((res ++ (c :: bc2)).dropLast.drop (res.length - 1)).reverse)
                        else res ++ (c :: bc2)) (.inr cs2)
                    = ((dfsB pm u f (.inr (cs2,
                          if c.sideChain then res.getLastD default
                          else (c :: bc2).getLastD (res.getLastD default)))).map
                        (fun rest => (if c.sideChain then
                            (c :: bc2)
                              ++ ((res.getLastD default :: (c :: bc2)).dropLast).reverse
                          else (c :: bc2)) ++ rest)).map (fun x => res ++ x)
                  have hdl : (res ++ (c :: bc2)).dropLast = res ++ (c :: bc2).dropLast :=
                    List.dropLast_append_cons
                  have hdrop : (res ++ (c :: bc2).dropLast).drop (res.length - 1)
                      = res.getLastD default :: (c :: bc2).dropLast := by
                    rw [List.drop_append_eq_append_drop, drop_pred res default hres]
                    have h0 : res.length - 1 - res.length = 0 := by omega
                    rw [h0, List.drop_zero]
                    rfl
                  by_cases hsc : c.sideChain = true
                  · simp only [hsc, if_true]
                    have hlast : ((res ++ (c :: bc2))
                        ++ (((res ++ (c :: bc2)).dropLast.drop (res.length - 1)).reverse)
                        ).getLastD default = res.getLastD default := by
                      rw [hdl, hdrop, List.reverse_cons, getLastD_append,
                        List.getLastD_concat]
                    rw [ih.2 cs2 _ (by simp), hlast]
                    cases hBB : dfsB pm u f (.inr (cs2, res.getLastD default)) with
                    | none => rfl
                    | some B =>
                        rw [Option.map_some', Option.map_some', Option.map_some']
                        congr 1
                        rw [hdl, hdrop, List.reverse_cons,
                          List.dropLast_cons_of_ne_nil
                            (show (c :: bc2) ≠ [] by simp),
                          List.reverse_cons]
                        simp [List.append_assoc]
                  · have hscf : c.sideChain = false := by
                      cases hb : c.sideChain
                      · rfl
                      · exact absurd hb hsc
                    simp only [hscf, Bool.false_eq_true, if_false]
                    rw [ih.2 cs2 _ (by simp),
                      getLastD_append res (c :: bc2) default]
                    cases hBB : dfsB pm u f
                        (.inr (cs2, (c :: bc2).getLastD (res.getLastD default))) with
                    | none => rfl
                    | some B =>
                        rw [Option.map_some', Option.map_some', Option.map_some']
                        congr 1
                        simp [List.append_assoc]

/-! Helper lemmas for the C1 analysis: the permutation map built at seed 0
maps each chain node id to its side-chain children in original order. -/

theorem pyPermutations_cons (f : Nat) (a : Node) (t : List Node) :
    pyPermutations (f + 1) (a :: t) =
      (List.range (a :: t).length).flatMap
        (fun i => (pyPermutations f ((a :: t).eraseIdx i)).map
          ((a :: t).getD i default :: ·)) := by
  rw [pyPermutations]
  simp

theorem pyPermutations_ne_nil : ∀ (f : Nat) (l : List Node), pyPermutations f l ≠ [] := by
  intro f
  induction f with
  | zero => intro l; cases l <;> simp [pyPermutations]
  | succ f ih =>
      intro l
      cases l with
      | nil => simp [pyPermutations]
      | cons a t =>
          rw [pyPermutations_cons]
          rw [show (a :: t).length = t.length + 1 from rfl, List.range_succ_eq_map,
            List.flatMap_cons]
          intro hemp
          have h1 := List.append_eq_nil.mp hemp
          have h2 := List.map_eq_nil_iff.mp h1.1
          exact ih _ h2

theorem pyPermutations_head : ∀ (f : Nat) (l : List Node), l.length ≤ f →
    (pyPermutations f l).getD 0 [] = l := by
  intro f
  induction f with
  | zero =>
      intro l hl
      have : l = [] := List.length_eq_zero.mp (by omega)
      subst this; rfl
  | succ f ih =>
      intro l hl
      cases l with
      | nil => rfl
      | cons a t =>
          rw [pyPermutations_cons, show (a :: t).length = t.length + 1 from rfl,
            List.range_succ_eq_map, List.flatMap_cons]
          have hne := pyPermutations_ne_nil f ((a :: t).eraseIdx 0)
          cases hperm : pyPermutations f ((a :: t).eraseIdx 0) with
          | nil => exact absurd hperm hne
          | cons q qs =>
              rw [List.map_cons, List.cons_append, List.getD_cons_zero,
                List.getD_cons_zero]
              have hq : q = t := by
                have hiht := ih t (by simpa using hl)
                rw [show (a :: t).eraseIdx 0 = t from rfl] at hperm
                rw [hperm] at hiht
                simpa using hiht
              rw [hq]

theorem seedFold_zero (l : List Node) :
    l.foldr
      (fun x y =>
        let sc := sideChilds x
        let k := Nat.factorial sc.length
        ((x.id, (pyPermutations sc.length sc).getD (y.2 % k) []) :: y.1, y.2 / k))
      ([], 0)
    = (l.map (fun a => (a.id, sideChilds a)), 0) := by
  induction l with
  | nil => rfl
  | cons a t ih =>
      rw [List.foldr_cons, ih]
      show ((a.id, (pyPermutations (sideChilds a).length (sideChilds a)).getD
          (0 % Nat.factorial (sideChilds a).length) [])
          :: t.map (fun a => (a.id, sideChilds a)),
          0 / Nat.factorial (sideChilds a).length)
        = ((a :: t).map (fun a => (a.id, sideChilds a)), 0)
      rw [Nat.zero_mod, Nat.zero_div,
        pyPermutations_head (sideChilds a).length (sideChilds a) (Nat.le_refl _),
        List.map_cons]

theorem permMapOf_zero (mc : List Node) :
    permMapOf mc 0 = mc.dropLast.map (fun a => (a.id, sideChilds a)) := by
  rw [permMapOf, seedFold, List.foldl_reverse]
  show (mc.dropLast.foldr
      (fun x y =>
        let sc := sideChilds x
        let k := Nat.factorial sc.length
        ((x.id, (pyPermutations sc.length sc).getD (y.2 % k) []) :: y.1, y.2 / k))
      ([], 0)).1 = mc.dropLast.map (fun a => (a.id, sideChilds a))
  rw [seedFold_zero mc.dropLast]

theorem lookupPm_zero_inv (mc : List Node) (k : Nat) (perm : List Node)
    (h : lookupPm (permMapOf mc 0) k = some perm) :
    ∃ a, a ∈ mc.dropLast ∧ a.id = k ∧ perm = sideChilds a := by
  rw [permMapOf_zero, lookupPm] at h
  cases hf : (mc.dropLast.map (fun a => (a.id, sideChilds a))).find?
      (fun p => p.1 == k) with
  | none => rw [hf] at h; exact absurd h (by simp)
  | some p =>
      rw [hf] at h
      have hpk := List.find?_some hf
      have hpmem := List.mem_of_find?_eq_some hf
      obtain ⟨a, hamem, hpa⟩ := List.mem_map.mp hpmem
      refine ⟨a, hamem, ?_, ?_⟩
      · have h2 : p.1 = k := by simpa using hpk
        rw [← h2, ← hpa]
      · simp at h
        rw [← h, ← hpa]

/-! Helper lemmas for the C1 analysis: inversion of the chain walk. -/

theorem chainFrom_succ_inv (root : Node) (fc : Nat) (n : Node) (ch : List Node)
    (h : chainFrom root (fc + 1) n = some ch) :
    mainChildCount n ≤ 1 ∧
    ((∃ c, firstMainChild n = some c ∧ c.id = 0 ∧ ch = [n, c]) ∨
     (∃ c ch2, firstMainChild n = some c ∧ c.id ≠ 0 ∧ chainFrom root fc c = some ch2 ∧
        ch = n :: ch2) ∨
     (firstMainChild n = none ∧ ch = [n, root])) := by
  rw [chainFrom] at h
  by_cases h1 : 1 < mainChildCount n
  · rw [if_pos h1] at h; exact absurd h (by simp)
  · rw [if_neg h1] at h
    refine ⟨by omega, ?_⟩
    cases hfm : firstMainChild n with
    | none =>
        simp only [hfm] at h
        simp at h
        exact Or.inr (Or.inr ⟨rfl, h.symm⟩)
    | some c =>
        simp only [hfm] at h
        by_cases hcid : c.id = 0
        · rw [if_pos hcid] at h
          simp at h
          exact Or.inl ⟨c, rfl, hcid, h.symm⟩
        · rw [if_neg hcid] at h
          cases hcf : chainFrom root fc c with
          | none => rw [hcf] at h; exact absurd h (by simp)
          | some ch2 =>
              rw [hcf] at h
              simp at h
              exact Or.inr (Or.inl ⟨c, ch2, rfl, hcid, hcf, h.symm⟩)

theorem firstMainChild_mem (n c : Node) (h : firstMainChild n = some c) : c ∈ n.children :=
  List.mem_of_find?_eq_some h

theorem chainFrom_dropLast (root : Node) :
    ∀ (fc : Nat) (n : Node) (ch : List Node), chainFrom root fc n = some ch →
      ch ≠ [] ∧
      (∀ y ∈ ch.dropLast, (y = n ∨ y.id ≠ 0) ∧ (n ∈ allNodes root → y ∈ allNodes root)) ∧
      (ch.getLastD default = root ∨ (ch.getLastD default).id = 0) := by
  intro fc
  induction fc with
  | zero => intro n ch h; exact absurd h (by simp [chainFrom])
  | succ fc ih =>
      intro n ch h
      obtain ⟨-, hcase⟩ := chainFrom_succ_inv root fc n ch h
      rcases hcase with ⟨c, hfm, hc0, rfl⟩ | ⟨c, ch2, hfm, hc0, hcf, rfl⟩ | ⟨hfm, rfl⟩
      · refine ⟨by simp, ?_, Or.inr hc0⟩
        intro y hy
        simp at hy
        subst hy
        exact ⟨Or.inl rfl, fun hn => hn⟩
      · obtain ⟨hne2, hdl2, hlast2⟩ := ih c ch2 hcf
        have hcc := firstMainChild_mem n c hfm
        refine ⟨by simp, ?_, ?_⟩
        · intro y hy
          rw [List.dropLast_cons_of_ne_nil hne2] at hy
          cases hy with
          | head => exact ⟨Or.inl rfl, fun hn => hn⟩
          | tail _ hy2 =>
              obtain ⟨hy3, hy4⟩ := hdl2 y hy2
              refine ⟨?_, ?_⟩
              · rcases hy3 with rfl | hy3
                · exact Or.inr hc0
                · exact Or.inr hy3
              · intro hn
                exact hy4 (mem_allNodes_of_child_of_mem root n c hn hcc)
        · rw [List.getLastD_cons]
          cases ch2 with
          | nil => exact absurd rfl hne2
          | cons z zs => exact hlast2
      · refine ⟨by simp, ?_, Or.inl rfl⟩
        intro y hy
        simp at hy
        subst hy
        exact ⟨Or.inl rfl, fun hn => hn⟩

/-! Helper lemmas for the C1 analysis: the stable sort of dfs_walk splits the
children into the side-chain block followed by the main block. -/

theorem sortedInsert_side (a : Node) (ha : a.sideChain = true) :
    ∀ (s m2 : List Node), (∀ c ∈ s, c.sideChain = true) → (∀ c ∈ m2, c.sideChain = false) →
      ∃ s2, sortedInsert a (s ++ m2) = s2 ++ m2 ∧ (∀ c ∈ s2, c.sideChain = true) := by
  intro s
  induction s with
  | nil =>
      intro m2 _ hm
      cases m2 with
      | nil => exact ⟨[a], rfl, by intro c hc; simp at hc; subst hc; exact ha⟩
      | cons b t =>
          rw [List.nil_append, sortedInsert]
          have hb : b.sideChain = false := hm b (List.mem_cons_self b t)
          have hk : keyLt b a = false := by
            rw [keyLt, sideKey, sideKey, ha, hb]
            simp
          rw [hk]
          exact ⟨[a], by simp, by intro c hc; simp at hc; subst hc; exact ha⟩
  | cons b s2 ih =>
      intro m2 hs hm
      rw [List.cons_append, sortedInsert]
      cases hk : keyLt b a with
      | true =>
          obtain ⟨s3, hs3, hside3⟩ := ih m2 (fun c hc => hs c (List.mem_cons_of_mem b hc)) hm
          refine ⟨b :: s3, by rw [List.cons_append, hs3]; simp, ?_⟩
          intro c hc
          cases hc with
          | head => exact hs b (List.mem_cons_self b s2)
          | tail _ hc2 => exact hside3 c hc2
      | false =>
          refine ⟨a :: b :: s2, by rw [List.cons_append]; simp, ?_⟩
          intro c hc
          cases hc with
          | head => exact ha
          | tail _ hc2 => exact hs c hc2

theorem sortedInsert_main (a : Node) (ha : a.sideChain = false) :
    ∀ (s m2 : List Node), (∀ c ∈ s, c.sideChain = true) → (∀ c ∈ m2, c.sideChain = false) →
      ∃ m3, sortedInsert a (s ++ m2) = s ++ m3 ∧ (∀ c ∈ m3, c.sideChain = false) := by
  intro s
  induction s with
  | nil =>
      intro m2 _ hm
      refine ⟨sortedInsert a m2, rfl, ?_⟩
      intro c hc
      have : c ∈ a :: m2 := (sortedInsert_perm a m2).subset hc
      cases this with
      | head => exact ha
      | tail _ hc2 => exact hm c hc2
  | cons b s2 ih =>
      intro m2 hs hm
      rw [List.cons_append, sortedInsert]
      have hb : b.sideChain = true := hs b (List.mem_cons_self b s2)
      have hk : keyLt b a = true := by
        rw [keyLt, sideKey, sideKey, ha, hb]
        simp
      rw [hk, if_pos rfl]
      obtain ⟨m3, hm3, hmain3⟩ := ih m2 (fun c hc => hs c (List.mem_cons_of_mem b hc)) hm
      exact ⟨m3, by rw [hm3, List.cons_append], hmain3⟩

theorem sortChilds_split (l : List Node) :
    ∃ s m2, sortChilds l = s ++ m2 ∧ (∀ c ∈ s, c.sideChain = true) ∧
      (∀ c ∈ m2, c.sideChain = false) := by
  induction l with
  | nil => exact ⟨[], [], rfl, by simp, by simp⟩
  | cons a t ih =>
      obtain ⟨s, m2, heq, hs, hm⟩ := ih
      rw [show sortChilds (a :: t) = sortedInsert a (sortChilds t) from rfl, heq]
      cases hside : a.sideChain with
      | true =>
          obtain ⟨s2, hs2, hside2⟩ := sortedInsert_side a hside s m2 hs hm
          exact ⟨s2, m2, hs2, hside2, hm⟩
      | false =>
          obtain ⟨m3, hm3, hmain3⟩ := sortedInsert_main a hside s m2 hs hm
          exact ⟨s, m3, hm3, hs, hmain3⟩

theorem findIdx_side_boundary (s m2 : List Node) (hs : ∀ c ∈ s, c.sideChain = true)
    (hm : ∀ c ∈ m2, c.sideChain = false) :
    (s ++ m2).findIdx (fun c => !c.sideChain) = s.length := by
  induction s with
  | nil =>
      cases m2 with
      | nil => rfl
      | cons b t =>
          rw [List.nil_append, List.findIdx_cons]
          rw [hm b (List.mem_cons_self b t)]
          rfl
  | cons b s2 ih =>
      rw [List.cons_append, List.findIdx_cons, hs b (List.mem_cons_self b s2)]
      rw [ih (fun c hc => hs c (List.mem_cons_of_mem b hc))]
      rfl

theorem find?_of_filter_singleton (p : Node → Bool) (x : Node) :
    ∀ l : List Node, l.filter p = [x] → l.find? p = some x := by
  intro l
  induction l with
  | nil => intro h; exact absurd h (by simp)
  | cons a t ih =>
      intro h
      rw [List.filter_cons] at h
      cases hpa : p a with
      | true =>
          rw [hpa] at h
          simp at h
          rw [List.find?_cons, hpa]
          rw [h.1]
      | false =>
          rw [hpa] at h
          simp at h
          rw [List.find?_cons, hpa]
          exact ih h

theorem orderedChilds_split (pm : List (Nat × List Node)) (n : Node) (cs : List Node)
    (hc1 : mainChildCount n ≤ 1)
    (hperm : ∀ perm, lookupPm pm n.id = some perm → perm = sideChilds n)
    (horc : orderedChilds pm true n = some cs) :
    ∃ sides, cs = sides ++ n.children.filter (fun c => !c.sideChain) ∧
      ∀ c ∈ sides, c.sideChain = true ∧ c ∈ n.children := by
  obtain ⟨s, m2, heq, hs, hm⟩ := sortChilds_split n.children
  have hm2 : m2 = n.children.filter (fun c => !c.sideChain) := by
    have hperm2 : ((sortChilds n.children).filter (fun c => !c.sideChain)).Perm
        (n.children.filter (fun c => !c.sideChain)) :=
      (sortChilds_perm n.children).filter _
    have hfil : (sortChilds n.children).filter (fun c => !c.sideChain) = m2 := by
      rw [heq, List.filter_append]
      rw [List.filter_eq_nil_iff.mpr (by
        intro c hc
        rw [hs c hc]
        simp)]
      rw [List.filter_eq_self.mpr (by
        intro c hc
        rw [hm c hc]
        simp)]
      rfl
    rw [hfil] at hperm2
    rw [mainChildCount] at hc1
    rcases Nat.lt_or_ge (n.children.filter (fun c => !c.sideChain)).length 1 with hlt | hge
    · have h0 : n.children.filter (fun c => !c.sideChain) = [] :=
        List.length_eq_zero.mp (by omega)
      rw [h0] at hperm2 ⊢
      exact hperm2.eq_nil
    · have h1 : (n.children.filter (fun c => !c.sideChain)).length = 1 := by omega
      obtain ⟨x, hx⟩ := List.length_eq_one.mp h1
      rw [hx] at hperm2 ⊢
      exact List.perm_singleton.mp hperm2
  rw [orderedChilds] at horc
  by_cases hns : n.sideChain = true
  · rw [show (true && !n.sideChain) = false from by rw [hns]; rfl] at horc
    simp only [if_false, Bool.false_eq_true] at horc
    refine ⟨s, ?_, fun c hc => ⟨hs c hc, ?_⟩⟩
    · have : cs = sortChilds n.children := by
        cases horc; rfl
      rw [this, heq, hm2]
    · exact (mem_sortChilds n.children c).mp (by rw [heq]; exact List.mem_append_left m2 hc)
  · have hnsf : n.sideChain = false := by
      cases hb : n.sideChain
      · rfl
      · exact absurd hb hns
    rw [show (true && !n.sideChain) = true from by rw [hnsf]; rfl] at horc
    simp only [if_true] at horc
    cases hlk : lookupPm pm n.id with
    | none => rw [hlk] at horc; exact absurd horc (by simp)
    | some perm =>
        rw [hlk] at horc
        have hpm2 : perm = sideChilds n := hperm perm hlk
        have hfi : (sortChilds n.children).findIdx (fun c => !c.sideChain) = s.length := by
          rw [heq]
          exact findIdx_side_boundary s m2 hs hm
        have hdr : (sortChilds n.children).drop s.length = m2 := by
          rw [heq]
          exact List.drop_left s m2
        simp only [hfi, hdr] at horc
        have : cs = perm ++ m2 := by cases horc; rfl
        refine ⟨perm, ?_, fun c hc => ?_⟩
        · rw [this, hm2]
        · rw [hpm2, sideChilds] at hc
          exact ⟨(List.mem_filter.mp hc).2, (List.mem_filter.mp hc).1⟩

/-! Helper lemmas for the C1 analysis: subtree id-disjointness under the
distinct-nonzero-ids hypothesis. -/

theorem allNodesL_append (l1 l2 : List Node) :
    allNodesL (l1 ++ l2) = allNodesL l1 ++ allNodesL l2 := by
  induction l1 with
  | nil => rfl
  | cons c t ih =>
      rw [List.cons_append, show allNodesL (c :: (t ++ l2))
          = allNodes c ++ allNodesL (t ++ l2) from rfl, ih,
        show allNodesL (c :: t) = allNodes c ++ allNodesL t from rfl, List.append_assoc]

theorem sublist_allNodesL (cs : List Node) (c : Node) (hc : c ∈ cs) :
    List.Sublist (allNodes c) (allNodesL cs) := by
  induction cs with
  | nil => cases hc
  | cons d t ih =>
      rw [show allNodesL (d :: t) = allNodes d ++ allNodesL t from rfl]
      cases hc with
      | head => exact List.sublist_append_left _ _
      | tail _ hc2 => exact (ih hc2).trans (List.sublist_append_right _ _)

theorem allNodes_sublist (T : Node) : ∀ n, n ∈ allNodes T →
    List.Sublist (allNodes n) (allNodes T) := by
  intro n hn
  rw [allNodes_expand] at hn
  cases hn with
  | head => exact List.Sublist.refl _
  | tail _ hn2 =>
      obtain ⟨c, hc, hnc⟩ := (mem_allNodesL T.children n).mp hn2
      have ih := allNodes_sublist c n hnc
      refine ih.trans ((sublist_allNodesL T.children c hc).trans ?_)
      rw [allNodes_expand]
      exact List.sublist_cons_self _ _
termination_by sizeOf T
decreasing_by simp_wf; exact sizeOf_child_lt _ _ hc

theorem nodupNZ_sub (T n : Node) (hnd : nodupNZ T) (hn : n ∈ allNodes T) : nodupNZ n :=
  List.Nodup.sublist (((allNodes_sublist T n hn).map Node.id).filter _) hnd

theorem nodupNZ_inj (T : Node) (hnd : nodupNZ T) (x y : Node) (hx : x ∈ allNodes T)
    (hy : y ∈ allNodes T) (hxid : x.id ≠ 0) (heq : x.id = y.id) : x = y := by
  have hmap : ((allNodes T).filter (fun n => n.id ≠ 0)).map Node.id
      = ((allNodes T).map Node.id).filter (fun i => i ≠ 0) := by
    have h0 : ((allNodes T).map Node.id).filter (fun i => decide (i ≠ 0))
        = ((allNodes T).filter ((fun i => decide (i ≠ 0)) ∘ Node.id)).map Node.id :=
      List.filter_map Node.id (allNodes T)
    exact h0.symm
  have hnd2 : (((allNodes T).filter (fun n => n.id ≠ 0)).map Node.id).Nodup := by
    rw [hmap]; exact hnd
  have hxm : x ∈ (allNodes T).filter (fun n => n.id ≠ 0) :=
    List.mem_filter.mpr ⟨hx, by simpa using hxid⟩
  have hyid : y.id ≠ 0 := heq ▸ hxid
  have hym : y ∈ (allNodes T).filter (fun n => n.id ≠ 0) :=
    List.mem_filter.mpr ⟨hy, by simpa using hyid⟩
  exact List.inj_on_of_nodup_map hnd2 hxm hym heq

theorem nzL_disjoint (A B : List Node)
    (h : (((A ++ B).map Node.id).filter (fun i => i ≠ 0)).Nodup)
    (x y : Node) (hx : x ∈ A) (hy : y ∈ B) (hxid : x.id ≠ 0) : x.id ≠ y.id := by
  intro heq
  rw [List.map_append, List.filter_append] at h
  obtain ⟨-, -, hdisj⟩ := List.nodup_append.mp h
  refine hdisj (List.mem_filter.mpr ⟨List.mem_map_of_mem Node.id hx, by simpa using hxid⟩)
    (List.mem_filter.mpr ⟨?_, by simpa using hxid⟩)
  rw [heq]
  exact List.mem_map_of_mem Node.id hy

theorem child_subtree_disjoint (n : Node) (hnd : nodupNZ n) (m c : Node)
    (hm : m ∈ n.children) (hc : c ∈ n.children) (hne : m ≠ c) (hmid : m.id ≠ 0)
    (hmem : m ∈ allNodes c) : False := by
  have hnd2 : (((allNodesL n.children).map Node.id).filter (fun i => i ≠ 0)).Nodup := by
    have hsub : List.Sublist (allNodesL n.children) (allNodes n) := by
      rw [allNodes_expand]; exact List.sublist_cons_self _ _
    exact List.Nodup.sublist ((hsub.map Node.id).filter _) hnd
  obtain ⟨s, t, hst⟩ := List.append_of_mem hm
  have hcs : c ∈ s ∨ c ∈ t := by
    rw [hst] at hc
    rcases List.mem_append.mp hc with h1 | h2
    · exact Or.inl h1
    · cases h2 with
      | head => exact absurd rfl hne
      | tail _ h3 => exact Or.inr h3
  rw [hst, allNodesL_append,
    show allNodesL (m :: t) = allNodes m ++ allNodesL t from rfl] at hnd2
  rcases hcs with hcs | hcs
  · have h1 : m ∈ allNodesL s := (sublist_allNodesL s c hcs).mem hmem
    have h2 : m ∈ allNodes m ++ allNodesL t :=
      List.mem_append_left _ (mem_allNodes_self m)
    exact nzL_disjoint (allNodesL s) (allNodes m ++ allNodesL t) hnd2 m m h1 h2 hmid rfl
  · rw [← List.append_assoc] at hnd2
    have h1 : m ∈ allNodesL s ++ allNodes m :=
      List.mem_append_right _ (mem_allNodes_self m)
    have h2 : m ∈ allNodesL t := (sublist_allNodesL t c hcs).mem hmem
    exact nzL_disjoint _ _ hnd2 m m h1 h2 hmid rfl

theorem child_ne_parent (n : Node) (hnd : nodupNZ n) (m : Node) (hm : m ∈ n.children)
    (hmid : m.id ≠ 0) : m ≠ n := by
  intro he
  have hmm : m ∈ allNodesL n.children :=
    (mem_allNodesL n.children m).mpr ⟨m, hm, mem_allNodes_self m⟩
  have hthis : nodupNZ n := hnd
  rw [nodupNZ, allNodes_expand, List.map_cons, List.filter_cons] at hthis
  have hnid : n.id ≠ 0 := by rw [← he]; exact hmid
  rw [if_pos (by simpa using hnid)] at hthis
  have hhead := (List.nodup_cons.mp hthis).1
  apply hhead
  refine List.mem_filter.mpr ⟨?_, by simpa using hnid⟩
  have hmid2 : m.id ∈ (allNodesL n.children).map Node.id :=
    List.mem_map_of_mem Node.id hmm
  rw [he] at hmid2
  exact hmid2

theorem orderedChilds_mem_children (pm : List (Nat × List Node)) (n : Node)
    (hperm : ∀ perm, lookupPm pm n.id = some perm → perm = sideChilds n)
    (cs : List Node) (horc : orderedChilds pm true n = some cs) :
    ∀ c ∈ cs, c ∈ n.children := by
  rw [orderedChilds] at horc
  by_cases hns : n.sideChain = true
  · rw [show (true && !n.sideChain) = false from by rw [hns]; rfl] at horc
    simp only [Bool.false_eq_true, if_false] at horc
    intro c hc
    cases horc
    exact (mem_sortChilds n.children c).mp hc
  · have hnsf : n.sideChain = false := by
      cases hb : n.sideChain
      · rfl
      · exact absurd hb hns
    rw [show (true && !n.sideChain) = true from by rw [hnsf]; rfl] at horc
    simp only [if_true] at horc
    cases hlk : lookupPm pm n.id with
    | none => rw [hlk] at horc; exact absurd horc (by simp)
    | some perm =>
        simp only [hlk] at horc
        have hp := hperm perm hlk
        intro c hc
        have hcseq : cs = perm ++ (sortChilds n.children).drop
            ((sortChilds n.children).findIdx (fun c => !c.sideChain)) := by
          cases horc; rfl
        rw [hcseq] at hc
        rcases List.mem_append.mp hc with h1 | h2
        · rw [hp, sideChilds] at h1
          exact (List.mem_filter.mp h1).1
        · exact (mem_sortChilds n.children c).mp (List.mem_of_mem_drop h2)

/-! Helper lemmas for the C1 analysis: inversion of one dfsB child step, and
the membership invariant of the walk (every emitted element lies in the
subtree of the node being walked, and elements of id 0 can only be the walked
node itself, since id-0 children are skipped). -/

theorem dfsB_inr_cons_inv (pm : List (Nat × List Node)) (u : Bool) (f : Nat)
    (c : Node) (cs : List Node) (lastE : Node) (B : List Node)
    (hc0 : c.id ≠ 0)
    (h : dfsB pm u (f + 1) (.inr (c :: cs, lastE)) = some B) :
    ∃ bc rest, dfsB pm u f (.inl c) = some bc ∧
      dfsB pm u f (.inr (cs, if c.sideChain then lastE else bc.getLastD lastE)) = some rest ∧
      B = (if c.sideChain then bc ++ ((lastE :: bc).dropLast).reverse else bc) ++ rest := by
  rw [dfsB, if_pos hc0] at h
  cases hbc : dfsB pm u f (.inl c) with
  | none => rw [hbc] at h; exact absurd h (by simp)
  | some bc =>
      simp only [hbc] at h
      cases hrest : dfsB pm u f
          (.inr (cs, if c.sideChain then lastE else bc.getLastD lastE)) with
      | none => rw [hrest] at h; exact absurd h (by simp)
      | some rest =>
          rw [hrest] at h
          simp at h
          exact ⟨bc, rest, rfl, hrest, h.symm⟩

theorem dfsB_mem (pm : List (Nat × List Node)) (T : Node)
    (hpm : ∀ k perm, lookupPm pm k = some perm →
      ∀ x : Node, x ∈ allNodes T → (x = T ∨ x.id ≠ 0) → x.id = k → perm = sideChilds x) :
    ∀ f : Nat,
      (∀ (n : Node) (D : List Node), n ∈ allNodes T → (n = T ∨ n.id ≠ 0) →
        dfsB pm true f (.inl n) = some D →
        ∀ x ∈ D, x ∈ allNodes n ∧ (x.id = 0 → x = n)) ∧
      (∀ (cs : List Node) (lastE n : Node) (B : List Node), n ∈ allNodes T →
        (n = T ∨ n.id ≠ 0) → (∀ c ∈ cs, c ∈ n.children) →
        lastE ∈ allNodes n → (lastE.id = 0 → lastE = n) →
        dfsB pm true f (.inr (cs, lastE)) = some B →
        ∀ x ∈ B, x ∈ allNodes n ∧ (x.id = 0 → x = n)) := by
  intro f
  induction f with
  | zero =>
      constructor
      · intro n D _ _ h; exact absurd h (by simp [dfsB])
      · intro cs lastE n B _ _ _ _ _ h; exact absurd h (by simp [dfsB])
  | succ f ih =>
      constructor
      · intro n D hnT hnr h
        rw [dfsB] at h
        cases horc : orderedChilds pm true n with
        | none => rw [horc] at h; exact absurd h (by simp)
        | some cs =>
            simp only [horc] at h
            cases hB : dfsB pm true f (.inr (cs, n)) with
            | none => rw [hB] at h; exact absurd h (by simp)
            | some B =>
                rw [hB] at h
                simp at h
                subst h
                have hperm : ∀ perm, lookupPm pm n.id = some perm → perm = sideChilds n :=
                  fun perm hlk => hpm n.id perm hlk n hnT hnr rfl
                have hcs := orderedChilds_mem_children pm n hperm cs horc
                have hB2 := ih.2 cs n n B hnT hnr hcs (mem_allNodes_self n)
                  (fun _ => rfl) hB
                intro x hx
                cases hx with
                | head => exact ⟨mem_allNodes_self n, fun _ => rfl⟩
                | tail _ hx2 => exact hB2 x hx2
      · intro cs lastE n B hnT hnr hcs hlastMem hlastId h
        cases cs with
        | nil =>
            rw [dfsB] at h
            cases h
            intro x hx
            cases hx
        | cons c cs2 =>
            by_cases hc0 : c.id = 0
            · rw [dfsB, if_neg (by simpa using hc0)] at h
              exact ih.2 cs2 lastE n B hnT hnr
                (fun d hd => hcs d (List.mem_cons_of_mem c hd)) hlastMem hlastId h
            · obtain ⟨bc, rest, hbc, hrest, hBeq⟩ :=
                dfsB_inr_cons_inv pm true f c cs2 lastE B hc0 h
              have hcmem : c ∈ n.children := hcs c (List.mem_cons_self c cs2)
              have hcT : c ∈ allNodes T := mem_allNodes_of_child_of_mem T n c hnT hcmem
              have hbc2 := ih.1 c bc hcT (Or.inr hc0) hbc
              have hbcn : ∀ x ∈ bc, x ∈ allNodes n ∧ (x.id = 0 → x = n) := by
                intro x hx
                obtain ⟨hx1, hx2⟩ := hbc2 x hx
                refine ⟨mem_allNodes_child n c x hcmem hx1, fun hx0 => ?_⟩
                have hxc := hx2 hx0
                rw [hxc] at hx0
                exact absurd hx0 hc0
              have hlast2 : (if c.sideChain then lastE else bc.getLastD lastE) ∈ allNodes n ∧
                  ((if c.sideChain then lastE else bc.getLastD lastE).id = 0 →
                    (if c.sideChain then lastE else bc.getLastD lastE) = n) := by
                by_cases hsc : c.sideChain = true
                · simp only [hsc, if_true]
                  exact ⟨hlastMem, hlastId⟩
                · have hnsf : c.sideChain = false := by
                    cases hb : c.sideChain
                    · rfl
                    · exact absurd hb hsc
                  simp only [hnsf, Bool.false_eq_true, if_false]
                  obtain ⟨bc3, hbc3⟩ := dfsB_inl_shape pm true f c bc hbc
                  have hbcne : bc ≠ [] := by rw [hbc3]; simp
                  exact hbcn _ (getLastD_mem bc lastE hbcne)
              have hrest2 := ih.2 cs2 (if c.sideChain then lastE else bc.getLastD lastE)
                n rest hnT hnr (fun d hd => hcs d (List.mem_cons_of_mem c hd))
                hlast2.1 hlast2.2 hrest
              subst hBeq
              intro x hx
              rcases List.mem_append.mp hx with hx1 | hx2
              · by_cases hsc : c.sideChain = true
                · simp only [hsc, if_true] at hx1
                  rcases List.mem_append.mp hx1 with hxa | hxb
                  · exact hbcn x hxa
                  · have hxr : x ∈ (lastE :: bc).dropLast := List.mem_reverse.mp hxb
                    have hxc : x ∈ lastE :: bc :=
                      (List.dropLast_sublist (lastE :: bc)).mem hxr
                    cases hxc with
                    | head => exact ⟨hlastMem, hlastId⟩
                    | tail _ hxd => exact hbcn x hxd
                · have hnsf : c.sideChain = false := by
                    cases hb : c.sideChain
                    · rfl
                    · exact absurd hb hsc
                  simp only [hnsf, Bool.false_eq_true, if_false] at hx1
                  exact hbcn x hx1
              · exact hrest2 x hx2

/-! Helper lemmas for the C1 analysis: decomposing the child loop of one
chain node into the excursion block (side-chain subtrees with their reversed
return spans and parent copies) and the main child block. -/

theorem getLastD_irrel {A : Type _} (l : List A) (d1 d2 : A) (h : l ≠ []) :
    l.getLastD d1 = l.getLastD d2 := by
  cases l with
  | nil => exact absurd rfl h
  | cons a t => rfl

theorem chainFrom_ne_nil (root : Node) (fc : Nat) (n : Node) (ch : List Node)
    (h : chainFrom root fc n = some ch) : ch ≠ [] := by
  cases fc with
  | zero => exact absurd h (by simp [chainFrom])
  | succ fc2 =>
      obtain ⟨-, hcase⟩ := chainFrom_succ_inv root fc2 n ch h
      rcases hcase with ⟨c, -, -, rfl⟩ | ⟨c, ch2, -, -, -, rfl⟩ | ⟨-, rfl⟩ <;> simp

theorem chainFrom_head (root : Node) (fc : Nat) (n : Node) (ch : List Node)
    (h : chainFrom root fc n = some ch) : ∃ t, ch = n :: t ∧ t ≠ [] := by
  cases fc with
  | zero => exact absurd h (by simp [chainFrom])
  | succ fc2 =>
      obtain ⟨-, hcase⟩ := chainFrom_succ_inv root fc2 n ch h
      rcases hcase with ⟨c, -, -, rfl⟩ | ⟨c, ch2, -, -, hcf2, rfl⟩ | ⟨-, rfl⟩
      · exact ⟨[c], rfl, by simp⟩
      · exact ⟨ch2, rfl, chainFrom_ne_nil root fc2 c ch2 hcf2⟩
      · exact ⟨[root], rfl, by simp⟩

theorem filter_singleton_of_find? (p : Node → Bool) (l : List Node) (c : Node)
    (hf : l.find? p = some c) (hc1 : (l.filter p).length ≤ 1) : l.filter p = [c] := by
  have hcm := List.mem_of_find?_eq_some hf
  have hpc := List.find?_some hf
  have hcf : c ∈ l.filter p := List.mem_filter.mpr ⟨hcm, hpc⟩
  have hlen : 1 ≤ (l.filter p).length := by
    cases hfe : l.filter p with
    | nil => rw [hfe] at hcf; cases hcf
    | cons a t => simp
  have hone : (l.filter p).length = 1 := by omega
  obtain ⟨x, hx⟩ := List.length_eq_one.mp hone
  rw [hx] at hcf
  simp at hcf
  rw [hx, hcf]

theorem dfsB_inr_noMain (pm : List (Nat × List Node)) :
    ∀ (f : Nat) (cs : List Node) (lastE : Node) (B : List Node),
      (∀ c ∈ cs, c.sideChain = true ∨ c.id = 0) →
      dfsB pm true f (.inr (cs, lastE)) = some B →
      ∀ x ∈ B, x = lastE ∨ ∃ c, c ∈ cs ∧ c.sideChain = true ∧ c.id ≠ 0 ∧
        ∃ g D, dfsB pm true g (.inl c) = some D ∧ x ∈ D := by
  intro f
  induction f with
  | zero => intro cs lastE B _ h; exact absurd h (by simp [dfsB])
  | succ f ih =>
      intro cs lastE B hall h
      cases cs with
      | nil =>
          rw [dfsB] at h
          cases h
          intro x hx
          cases hx
      | cons c cs2 =>
          by_cases hc0 : c.id = 0
          · rw [dfsB, if_neg (by simpa using hc0)] at h
            intro x hx
            rcases ih cs2 lastE B (fun d hd => hall d (List.mem_cons_of_mem c hd)) h x hx
              with h1 | ⟨d, hd, hrest⟩
            · exact Or.inl h1
            · exact Or.inr ⟨d, List.mem_cons_of_mem c hd, hrest⟩
          · obtain ⟨bc, rest, hbc, hrest, hBeq⟩ :=
              dfsB_inr_cons_inv pm true f c cs2 lastE B hc0 h
            have hsc : c.sideChain = true := by
              rcases hall c (List.mem_cons_self c cs2) with h1 | h1
              · exact h1
              · exact absurd h1 hc0
            simp only [hsc, if_true] at hrest hBeq
            subst hBeq
            intro x hx
            rcases List.mem_append.mp hx with hx1 | hx2
            · rcases List.mem_append.mp hx1 with hxa | hxb
              · exact Or.inr ⟨c, List.mem_cons_self c cs2, hsc, hc0, f, bc, hbc, hxa⟩
              · have hxr := List.mem_reverse.mp hxb
                have hxc := (List.dropLast_sublist (lastE :: bc)).mem hxr
                cases hxc with
                | head => exact Or.inl rfl
                | tail _ hxd =>
                    exact Or.inr ⟨c, List.mem_cons_self c cs2, hsc, hc0, f, bc, hbc, hxd⟩
            · rcases ih cs2 lastE rest (fun d hd => hall d (List.mem_cons_of_mem c hd))
                hrest x hx2 with h1 | ⟨d, hd, hrest2⟩
              · exact Or.inl h1
              · exact Or.inr ⟨d, List.mem_cons_of_mem c hd, hrest2⟩

theorem dfsB_inr_main (pm : List (Nat × List Node)) :
    ∀ (f : Nat) (sides : List Node) (m lastE : Node) (B : List Node),
      (∀ c ∈ sides, c.sideChain = true ∨ c.id = 0) →
      m.sideChain = false → m.id ≠ 0 →
      dfsB pm true f (.inr (sides ++ [m], lastE)) = some B →
      ∃ E bm g, B = E ++ bm ∧ dfsB pm true g (.inl m) = some bm ∧
        (∀ x ∈ E, x = lastE ∨ ∃ c, c ∈ sides ∧ c.sideChain = true ∧ c.id ≠ 0 ∧
          ∃ g2 D, dfsB pm true g2 (.inl c) = some D ∧ x ∈ D) := by
  intro f
  induction f with
  | zero => intro sides m lastE B _ _ _ h; exact absurd h (by simp [dfsB])
  | succ f ih =>
      intro sides m lastE B hall hms hm0 h
      cases sides with
      | nil =>
          rw [List.nil_append] at h
          obtain ⟨bc, rest, hbc, hrest, hBeq⟩ :=
            dfsB_inr_cons_inv pm true f m [] lastE B hm0 h
          simp only [hms, Bool.false_eq_true, if_false] at hrest hBeq
          have hrestnil : rest = [] := by
            cases f with
            | zero => exact absurd hrest (by simp [dfsB])
            | succ f2 => rw [dfsB] at hrest; cases hrest; rfl
          refine ⟨[], bc, f, ?_, hbc, ?_⟩
          · rw [hBeq, hrestnil, List.append_nil, List.nil_append]
          · intro x hx; cases hx
      | cons c sides2 =>
          rw [List.cons_append] at h
          by_cases hc0 : c.id = 0
          · rw [dfsB, if_neg (by simpa using hc0)] at h
            obtain ⟨E, bm, g, hBeq, hbm, hE⟩ := ih sides2 m lastE B
              (fun d hd => hall d (List.mem_cons_of_mem c hd)) hms hm0 h
            refine ⟨E, bm, g, hBeq, hbm, fun x hx => ?_⟩
            rcases hE x hx with h1 | ⟨d, hd, hr⟩
            · exact Or.inl h1
            · exact Or.inr ⟨d, List.mem_cons_of_mem c hd, hr⟩
          · obtain ⟨bc, rest, hbc, hrest, hBeq⟩ :=
              dfsB_inr_cons_inv pm true f c (sides2 ++ [m]) lastE B hc0 h
            have hsc : c.sideChain = true := by
              rcases hall c (List.mem_cons_self c sides2) with h1 | h1
              · exact h1
              · exact absurd h1 hc0
            simp only [hsc, if_true] at hrest hBeq
            obtain ⟨E, bm, g, hreq, hbm, hE⟩ := ih sides2 m lastE rest
              (fun d hd => hall d (List.mem_cons_of_mem c hd)) hms hm0 hrest
            refine ⟨(bc ++ ((lastE :: bc).dropLast).reverse) ++ E, bm, g, ?_, hbm, ?_⟩
            · rw [hBeq, hreq]; simp [List.append_assoc]
            · intro x hx
              rcases List.mem_append.mp hx with hx1 | hx2
              · rcases List.mem_append.mp hx1 with hxa | hxb
                · exact Or.inr ⟨c, List.mem_cons_self c sides2, hsc, hc0, f, bc, hbc, hxa⟩
                · have hxr := List.mem_reverse.mp hxb
                  have hxc := (List.dropLast_sublist (lastE :: bc)).mem hxr
                  cases hxc with
                  | head => exact Or.inl rfl
                  | tail _ hxd =>
                      exact Or.inr ⟨c, List.mem_cons_self c sides2, hsc, hc0, f, bc, hbc, hxd⟩
              · rcases hE x hx2 with h1 | ⟨d, hd, hr⟩
                · exact Or.inl h1
                · exact Or.inr ⟨d, List.mem_cons_of_mem c hd, hr⟩

/-! Helper lemma for the C1 analysis: along the main chain, the compositional
walk output of a chain node decomposes into segments (one per chain node
before the closing element) whose excursion blocks avoid the next chain node
and the closing element. -/

theorem seg_deep (pm : List (Nat × List Node)) (T : Node) (hT0 : T.id = 0)
    (hnd : nodupNZ T)
    (hpm : ∀ k perm, lookupPm pm k = some perm →
      ∀ x : Node, x ∈ allNodes T → (x = T ∨ x.id ≠ 0) → x.id = k → perm = sideChilds x) :
    ∀ (fc : Nat) (n : Node) (ch : List Node) (fd : Nat) (D : List Node),
      n ∈ allNodes T → n.id ≠ 0 →
      chainFrom T fc n = some ch →
      dfsB pm true fd (.inl n) = some D →
      ∃ segs : List (Node × List Node), segs ≠ [] ∧ D = flattenSegs segs ∧
        segs.map Prod.fst = ch.dropLast ∧ segsOk segs (ch.getLastD default) := by
  intro fc
  induction fc with
  | zero => intro n ch fd D _ _ hchain _; exact absurd hchain (by simp [chainFrom])
  | succ fc ih =>
      intro n ch fd D hnT hn0 hchain hD
      obtain ⟨hc1, hcase⟩ := chainFrom_succ_inv T fc n ch hchain
      cases fd with
      | zero => exact absurd hD (by simp [dfsB])
      | succ fd2 =>
          rw [dfsB] at hD
          cases horc : orderedChilds pm true n with
          | none => rw [horc] at hD; exact absurd hD (by simp)
          | some cs0 =>
              simp only [horc] at hD
              cases hB : dfsB pm true fd2 (.inr (cs0, n)) with
              | none => rw [hB] at hD; exact absurd hD (by simp)
              | some B =>
                  rw [hB] at hD
                  simp at hD
                  subst hD
                  have hperm : ∀ perm, lookupPm pm n.id = some perm →
                      perm = sideChilds n :=
                    fun perm hlk => hpm n.id perm hlk n hnT (Or.inr hn0) rfl
                  obtain ⟨sides, hcs0eq, hsides⟩ :=
                    orderedChilds_split pm n cs0 hc1 hperm horc
                  rcases hcase with ⟨c, hfm, hcid0, rfl⟩ |
                    ⟨m, ch2, hfm, hm0, hcf, rfl⟩ | ⟨hfm, rfl⟩
                  · have hfil : n.children.filter (fun d => !d.sideChain) = [c] := by
                      rw [mainChildCount] at hc1
                      exact filter_singleton_of_find? _ n.children c hfm hc1
                    rw [hfil] at hcs0eq
                    subst hcs0eq
                    have hall : ∀ d ∈ sides ++ [c], d.sideChain = true ∨ d.id = 0 := by
                      intro d hd
                      rcases List.mem_append.mp hd with h1 | h2
                      · exact Or.inl (hsides d h1).1
                      · have hdc : d = c := by simpa using h2
                        rw [hdc]
                        exact Or.inr hcid0
                    have hBprops := dfsB_inr_noMain pm fd2 (sides ++ [c]) n B hall hB
                    refine ⟨[(n, B)], by simp, ?_, rfl, ?_⟩
                    · rw [flattenSegs_cons, flattenSegs_nil, List.append_nil]
                    · show c ∉ B
                      intro hcB
                      rcases hBprops c hcB with h1 |
                        ⟨d, hd, hdside, hd0, g, D2, hD2, hcD2⟩
                      · rw [h1] at hcid0
                        exact hn0 hcid0
                      · have hdsides : d ∈ sides := by
                          rcases List.mem_append.mp hd with h1 | h2
                          · exact h1
                          · have hdc : d = c := by simpa using h2
                            rw [hdc] at hd0
                            exact absurd hcid0 hd0
                        have hdmem : d ∈ n.children := (hsides d hdsides).2
                        have hdT : d ∈ allNodes T :=
                          mem_allNodes_of_child_of_mem T n d hnT hdmem
                        have hprops := (dfsB_mem pm T hpm g).1 d D2 hdT
                          (Or.inr hd0) hD2 c hcD2
                        have hcd := hprops.2 hcid0
                        rw [hcd] at hcid0
                        exact hd0 hcid0
                  · have hfil : n.children.filter (fun d => !d.sideChain) = [m] := by
                      rw [mainChildCount] at hc1
                      exact filter_singleton_of_find? _ n.children m hfm hc1
                    have hmside : m.sideChain = false := by
                      have hp := List.find?_some hfm
                      simpa using hp
                    rw [hfil] at hcs0eq
                    subst hcs0eq
                    have hallS : ∀ d ∈ sides, d.sideChain = true ∨ d.id = 0 :=
                      fun d hd => Or.inl (hsides d hd).1
                    obtain ⟨E, bm, g, hBeq, hbm, hE⟩ :=
                      dfsB_inr_main pm fd2 sides m n B hallS hmside hm0 hB
                    have hmmem : m ∈ n.children := firstMainChild_mem n m hfm
                    have hmT : m ∈ allNodes T :=
                      mem_allNodes_of_child_of_mem T n m hnT hmmem
                    obtain ⟨segs2, hne2, hfl2, hmap2, hok2⟩ :=
                      ih m ch2 g bm hmT hm0 hcf hbm
                    obtain ⟨t2, ht2eq, ht2ne⟩ := chainFrom_head T fc m ch2 hcf
                    have hch2ne : ch2 ≠ [] := chainFrom_ne_nil T fc m ch2 hcf
                    refine ⟨(n, E) :: segs2, by simp, ?_, ?_, ?_⟩
                    · rw [flattenSegs_cons, ← hfl2, hBeq]
                    · rw [List.map_cons, hmap2, List.dropLast_cons_of_ne_nil hch2ne]
                    · cases segs2 with
                      | nil => exact absurd rfl hne2
                      | cons s2 rest =>
                          have hs2 : s2.1 = m := by
                            rw [ht2eq, List.dropLast_cons_of_ne_nil ht2ne,
                              List.map_cons] at hmap2
                            injection hmap2 with h1 h2
                          show s2.1 ∉ (n, E).2 ∧
                            segsOk (s2 :: rest) ((n :: ch2).getLastD default)
                          refine ⟨?_, ?_⟩
                          · rw [hs2]
                            show m ∉ E
                            intro hmE
                            rcases hE m hmE with h1 |
                              ⟨d, hd, hdside, hd0, g2, D2, hD2, hmD2⟩
                            · exact child_ne_parent n (nodupNZ_sub T n hnd hnT) m
                                hmmem hm0 h1
                            · have hdmem : d ∈ n.children := (hsides d hd).2
                              have hdT : d ∈ allNodes T :=
                                mem_allNodes_of_child_of_mem T n d hnT hdmem
                              have hmemD := (dfsB_mem pm T hpm g2).1 d D2 hdT
                                (Or.inr hd0) hD2 m hmD2
                              have hmd : m ≠ d := by
                                intro he
                                rw [he, hdside] at hmside
                                cases hmside
                              exact child_subtree_disjoint n
                                (nodupNZ_sub T n hnd hnT) m d hmmem hdmem hmd hm0
                                hmemD.1
                          · rw [List.getLastD_cons,
                              getLastD_irrel ch2 n default hch2ne]
                            exact hok2
                  · have hfil : n.children.filter (fun d => !d.sideChain) = [] := by
                      rw [List.filter_eq_nil_iff]
                      intro d hd
                      have hno := List.find?_eq_none.mp hfm d hd
                      simpa using hno
                    rw [hfil, List.append_nil] at hcs0eq
                    rw [hcs0eq] at hB
                    have hall : ∀ d ∈ sides, d.sideChain = true ∨ d.id = 0 :=
                      fun d hd => Or.inl (hsides d hd).1
                    have hBprops := dfsB_inr_noMain pm fd2 sides n B hall hB
                    refine ⟨[(n, B)], by simp, ?_, rfl, ?_⟩
                    · rw [flattenSegs_cons, flattenSegs_nil, List.append_nil]
                    · show T ∉ B
                      intro hTB
                      rcases hBprops T hTB with h1 |
                        ⟨d, hd, hdside, hd0, g, D2, hD2, hTD2⟩
                      · rw [← h1] at hn0
                        exact hn0 hT0
                      · have hdmem : d ∈ n.children := (hsides d hd).2
                        have hdT : d ∈ allNodes T :=
                          mem_allNodes_of_child_of_mem T n d hnT hdmem
                        have hprops := (dfsB_mem pm T hpm g).1 d D2 hdT
                          (Or.inr hd0) hD2 T hTD2
                        have hTd := hprops.2 hT0
                        have hd02 : d.id = 0 := by rw [← hTd]; exact hT0
                        exact hd0 hd02

/-! Final helpers and the C1 theorem itself. -/

theorem canonicalize_id (t : Node) : (canonicalize t).id = t.id := by
  rw [canonicalize]
  by_cases h : needImpose t = true
  · rw [if_pos h]
    cases t with
    | mk i v s cs => rfl
  · rw [if_neg h]

theorem dropLast_append_getLastD {A : Type _} :
    ∀ (l : List A) (d : A), l ≠ [] → l.dropLast ++ [l.getLastD d] = l := by
  intro l
  induction l with
  | nil => intro d h; exact absurd rfl h
  | cons a t ih =>
      intro d h
      cases t with
      | nil => rfl
      | cons b t2 =>
          rw [List.getLastD_cons, List.dropLast_cons_of_ne_nil (by simp),
            List.cons_append, ih a (by simp)]

theorem permMap_good (T : Node) (hnd : nodupNZ T)
    (fc : Nat) (mc : List Node) (hmc : chainFrom T fc T = some mc) :
    ∀ k perm, lookupPm (permMapOf mc 0) k = some perm →
      ∀ x : Node, x ∈ allNodes T → (x = T ∨ x.id ≠ 0) → x.id = k →
        perm = sideChilds x := by
  intro k perm hlk x hxT hxr hxk
  obtain ⟨a, hamem, haid, hperm⟩ := lookupPm_zero_inv mc k perm hlk
  obtain ⟨-, hdl, -⟩ := chainFrom_dropLast T fc T mc hmc
  obtain ⟨har, haT⟩ := hdl a hamem
  have haT2 : a ∈ allNodes T := haT (mem_allNodes_self T)
  by_cases hx0 : x.id = 0
  · have hxT2 : x = T := by
      rcases hxr with h | h
      · exact h
      · exact absurd hx0 h
    have ha0 : a.id = 0 := by rw [haid, ← hxk, hx0]
    have haTeq : a = T := by
      rcases har with h | h
      · exact h
      · exact absurd ha0 h
    rw [hperm, haTeq, hxT2]
  · have hax : a = x := nodupNZ_inj T hnd a x haT2 hxT
      (by rw [haid, ← hxk]; exact hx0) (by rw [haid, hxk])
    rw [hperm, hax]

/-- C1, amended: the seed-0 self-check of DiffusionProcess.__init__ holds for
every tree whose root has id 0, whose nonzero node ids are distinct after
canonicalization, and whose main chain has at least three elements (i.e. the
root has a main-chain child): augment_walk_order applied with seed 0 and
forward direction to the canonical depth-first sequence reproduces that
sequence exactly. Without the chain-length condition the indices loop can run
past the end of the main chain and raise IndexError (c1_counterexample). -/
theorem c1_seed_zero_selfcheck (t : Node) (mc res : List Node)
    (hroot : t.id = 0)
    (hnd : nodupNZ (canonicalize t))
    (hmc : computeMainChain (canonicalize t) = some mc)
    (hlen : 3 ≤ mc.length)
    (hres : computeDfs (canonicalize t) mc 0 = some res) :
    augmentWalkOrder res mc 0 (totalOf mc) true = some res := by
  set T := canonicalize t with hT
  have hT0 : T.id = 0 := by rw [hT, canonicalize_id]; exact hroot
  rw [computeMainChain] at hmc
  have hpm := permMap_good T hnd (nodeCount T + 1) mc hmc
  obtain ⟨hc1, hcase⟩ := chainFrom_succ_inv T (nodeCount T) T mc hmc
  rcases hcase with ⟨c, hfm, hcid0, rfl⟩ | ⟨m, ch2, hfm, hm0, hcf, rfl⟩ | ⟨hfm, rfl⟩
  · simp at hlen
  · rw [computeDfs] at hres
    by_cases hrem : seedRemainder (T :: ch2) 0 ≠ 0
    · rw [if_pos hrem] at hres
      exact absurd hres (by simp)
    · rw [if_neg hrem] at hres
      rw [dfsWalk] at hres
      have heq := (dfsRun_eq_dfsB (permMapOf (T :: ch2) 0) true (fuelW T)).1 T []
      rw [heq] at hres
      cases hd : dfsB (permMapOf (T :: ch2) 0) true (fuelW T) (.inl T) with
      | none => rw [hd] at hres; exact absurd hres (by simp)
      | some D =>
          rw [hd] at hres
          simp at hres
          subst hres
          cases hfw : fuelW T with
          | zero => rw [hfw] at hd; exact absurd hd (by simp [dfsB])
          | succ fd2 =>
              rw [hfw, dfsB] at hd
              cases horc : orderedChilds (permMapOf (T :: ch2) 0) true T with
              | none => rw [horc] at hd; exact absurd hd (by simp)
              | some cs0 =>
                  simp only [horc] at hd
                  cases hB : dfsB (permMapOf (T :: ch2) 0) true fd2
                      (.inr (cs0, T)) with
                  | none => rw [hB] at hd; exact absurd hd (by simp)
                  | some B =>
                      rw [hB] at hd
                      simp at hd
                      subst hd
                      have hpermT : ∀ perm,
                          lookupPm (permMapOf (T :: ch2) 0) T.id = some perm →
                          perm = sideChilds T :=
                        fun perm hlk =>
                          hpm T.id perm hlk T (mem_allNodes_self T) (Or.inl rfl) rfl
                      obtain ⟨sides, hcs0eq, hsides⟩ :=
                        orderedChilds_split (permMapOf (T :: ch2) 0) T cs0 hc1
                          hpermT horc
                      have hfil : T.children.filter (fun d => !d.sideChain)
                          = [m] := by
                        rw [mainChildCount] at hc1
                        exact filter_singleton_of_find? _ T.children m hfm hc1
                      have hmside : m.sideChain = false := by
                        have hp := List.find?_some hfm
                        simpa using hp
                      rw [hfil] at hcs0eq
                      subst hcs0eq
                      have hallS : ∀ d ∈ sides, d.sideChain = true ∨ d.id = 0 :=
                        fun d hd => Or.inl (hsides d hd).1
                      obtain ⟨E, bm, g, hBeq, hbm, hE⟩ :=
                        dfsB_inr_main (permMapOf (T :: ch2) 0) fd2 sides m T B
                          hallS hmside hm0 hB
                      have hmmem : m ∈ T.children := firstMainChild_mem T m hfm
                      have hmT : m ∈ allNodes T :=
                        mem_allNodes_of_child_of_mem T T m (mem_allNodes_self T)
                          hmmem
                      obtain ⟨segs2, hne2, hfl2, hmap2, hok2⟩ :=
                        seg_deep (permMapOf (T :: ch2) 0) T hT0 hnd hpm
                          (nodeCount T) m ch2 g bm hmT hm0 hcf hbm
                      have hch2ne : ch2 ≠ [] :=
                        chainFrom_ne_nil T (nodeCount T) m ch2 hcf
                      have hflat : (T :: B : List Node)
                          = flattenSegs ((T, E) :: segs2) := by
                        rw [flattenSegs_cons, ← hfl2, hBeq]
                      have hmapf : ((T, E) :: segs2).map Prod.fst
                          = (T :: ch2).dropLast := by
                        rw [List.map_cons, hmap2,
                          List.dropLast_cons_of_ne_nil hch2ne]
                      have hok : segsOk ((T, E) :: segs2)
                          ((T :: ch2).getLastD default) := by
                        cases segs2 with
                        | nil => exact absurd rfl hne2
                        | cons s2 rest =>
                            obtain ⟨t2, ht2eq, ht2ne⟩ :=
                              chainFrom_head T (nodeCount T) m ch2 hcf
                            have hs2 : s2.1 = m := by
                              rw [ht2eq, List.dropLast_cons_of_ne_nil ht2ne,
                                List.map_cons] at hmap2
                              injection hmap2 with h1 h2
                            show s2.1 ∉ (T, E).2 ∧
                              segsOk (s2 :: rest) ((T :: ch2).getLastD default)
                            refine ⟨?_, ?_⟩
                            · rw [hs2]
                              show m ∉ E
                              intro hmE
                              rcases hE m hmE with h1 |
                                ⟨d, hd, hdside, hd0, g2, D2, hD2, hmD2⟩
                              · rw [h1] at hm0
                                exact hm0 hT0
                              · have hdmem : d ∈ T.children := (hsides d hd).2
                                have hdT : d ∈ allNodes T :=
                                  mem_allNodes_of_child_of_mem T T d
                                    (mem_allNodes_self T) hdmem
                                have hmemD :=
                                  (dfsB_mem (permMapOf (T :: ch2) 0) T hpm g2).1
                                    d D2 hdT (Or.inr hd0) hD2 m hmD2
                                have hmd : m ≠ d := by
                                  intro he
                                  rw [he, hdside] at hmside
                                  cases hmside
                                exact child_subtree_disjoint T hnd m d hmmem
                                  hdmem hmd hm0 hmemD.1
                            · rw [List.getLastD_cons,
                                getLastD_irrel ch2 T default hch2ne]
                              exact hok2
                      have hmcdec : (T :: ch2 : List Node)
                          = ((T, E) :: segs2).map Prod.fst
                            ++ [(T :: ch2).getLastD default] := by
                        rw [hmapf]
                        exact (dropLast_append_getLastD (T :: ch2) default
                          (by simp)).symm
                      have hidx : computeIndices (T :: B) (T :: ch2) 0
                          = some (cumStarts ((T, E) :: segs2) 0) := by
                        rw [hflat, hmcdec]
                        exact computeIndices_segments ((T, E) :: segs2)
                          ((T :: ch2).getLastD default) 0 hok
                      have hfin : augmentSlices (T :: B)
                          (cumStarts ((T, E) :: segs2) 0) 0 true = T :: B := by
                        rw [hflat]
                        exact augmentSlices_flatten ((T, E) :: segs2) (by simp)
                      rw [augmentWalkOrder, hidx, Nat.zero_div, Option.map_some',
                        hfin]
  · simp at hlen

/-- C1 counterexample: for a tree whose root has only side-chain children the
main chain closes immediately back to the root, the depth-first sequence
contains the root three times while the chain has two entries, and the
indices loop of augment_walk_order runs past the end of the main chain: the
constructor raises IndexError (modelled as none) instead of satisfying the
seed-0 self-check. -/
theorem c1_counterexample :
    canonicalize c1Bad = c1Bad ∧
    computeMainChain c1Bad = some [c1Bad, c1Bad] ∧
    computeDfs c1Bad [c1Bad, c1Bad] 0 =
      some [c1Bad, Node.mk 1 "A" true [], c1Bad, Node.mk 2 "B" true [], c1Bad] ∧
    augmentWalkOrder
      [c1Bad, Node.mk 1 "A" true [], c1Bad, Node.mk 2 "B" true [], c1Bad]
      [c1Bad, c1Bad] 0 (totalOf [c1Bad, c1Bad]) true = none := by
  refine ⟨by decide, by decide, by decide, by decide⟩

/-- Witness for C1 at a concrete tree whose root has a main-chain child and a
side-chain child: every hypothesis holds and the seed-0 augmented order
equals the depth-first order. -/
theorem c1_seed_zero_selfcheck_witness :
    (c1Good.id = 0 ∧ nodupNZ (canonicalize c1Good) ∧
      computeMainChain (canonicalize c1Good)
        = some [c1Good, Node.mk 1 "M" false [], c1Good] ∧
      3 ≤ ([c1Good, Node.mk 1 "M" false [], c1Good] : List Node).length ∧
      computeDfs (canonicalize c1Good) [c1Good, Node.mk 1 "M" false [], c1Good] 0
        = some [c1Good, Node.mk 2 "S" true [], c1Good, Node.mk 1 "M" false []]) ∧
    augmentWalkOrder
      [c1Good, Node.mk 2 "S" true [], c1Good, Node.mk 1 "M" false []]
      [c1Good, Node.mk 1 "M" false [], c1Good] 0
      (totalOf [c1Good, Node.mk 1 "M" false [], c1Good]) true
      = some [c1Good, Node.mk 2 "S" true [], c1Good, Node.mk 1 "M" false []] :=
  ⟨⟨by decide, by unfold nodupNZ; decide, by decide, by decide, by decide⟩,
    c1_seed_zero_selfcheck c1Good [c1Good, Node.mk 1 "M" false [], c1Good]
      [c1Good, Node.mk 2 "S" true [], c1Good, Node.mk 1 "M" false []]
      (by decide) (by unfold nodupNZ; decide) (by decide) (by decide) (by decide)⟩

end RandomWalk
